import Mathlib

/-!
Verification of the lunar-snake-hub gateway retrieval pipeline
(`src/infra/docker/gateway/app/services/`): semantic chunking, hybrid
search with reciprocal rank fusion, re-ranking with confidence and
diversification, and change detection for incremental indexing.

Modelling conventions (shallow embedding of the Python sources):
- Python `str` values that are sliced / indexed by code-point position are
  modelled as `List Char`; strings that are only compared or concatenated
  stay `String`.  Python `float` is modelled as `ℚ` (exact arithmetic).
- Python dicts keyed by strings are modelled as insertion-ordered
  association lists (`List (String × β)`) with dict-update semantics.
- External libraries (CPython `ast`, `re` applied to the two JS patterns,
  `yaml`, the sentence-transformer / cross-encoder models, `tiktoken`,
  `qdrant`, `bm25`) are modelled as oracle parameters: arbitrary but fixed
  functions supplied to the embedded code.  Regular expressions that the
  repository applies to markdown and plain text are small enough to be
  embedded directly and are modelled character by character.
- `\s`, `str.strip()`, `str.split()` and `str.lower()` are modelled on the
  ASCII range (all concrete inputs used in witnesses are ASCII).
- Python's stable `sorted(..., reverse=True)` by a numeric key is modelled
  by `List.insertionSort` with the reflexive descending relation, which
  computes the same (unique) stable descending reordering.
- A `try`/`except` whose body can raise in the source is modelled by an
  `Option`-valued computation that short-circuits to the handler; `except`
  blocks whose bodies are total in the model are noted as unreachable.

The file is laid out as definitions first, then theorems.
-/

namespace SnakeHub

/-! # Definitions -/

/-! ## Python string primitives -/

/-- ASCII whitespace recognised by Python's `\s`, `str.split()` and
`str.strip()` (space, tab, newline, carriage return, vertical tab, form
feed). -/
def isPyWs (c : Char) : Bool :=
  c = ' ' || c = '\t' || c = '\n' || c = '\r' || c = '\x0b' || c = '\x0c'

/-- Python `content.split(sep)` for a one-character separator: split at
every occurrence, keeping empty pieces.  Never returns `[]`. -/
def pySplitOn (sep : Char) : List Char → List (List Char)
  | [] => [[]]
  | c :: cs =>
    if c = sep then [] :: pySplitOn sep cs
    else (pySplitOn sep cs).modifyHead (c :: ·)

/-- Python `content.split("\n")`. -/
def pySplitNl : List Char → List (List Char) :=
  pySplitOn '\n'

/-- Python `"\n".join(lines)`. -/
def pyJoinNl (ls : List (List Char)) : List Char :=
  List.intercalate ['\n'] ls

/-- Helper for `pySplitWs`: `acc` is the current in-progress word,
reversed. -/
def pySplitWsAux : List Char → List Char → List (List Char)
  | [], acc => if acc = [] then [] else [acc.reverse]
  | c :: cs, acc =>
    if isPyWs c then
      if acc = [] then pySplitWsAux cs []
      else acc.reverse :: pySplitWsAux cs []
    else pySplitWsAux cs (c :: acc)

/-- Python `text.split()` (no separator): maximal whitespace-free runs,
empties dropped. -/
def pySplitWs (cs : List Char) : List (List Char) :=
  pySplitWsAux cs []

/-- Python `str.strip()`: drop ASCII whitespace from both ends. -/
def pyStrip (cs : List Char) : List Char :=
  ((cs.dropWhile isPyWs).reverse.dropWhile isPyWs).reverse

/-- Python `str.lower()` restricted to ASCII. -/
def pyLower (cs : List Char) : List Char :=
  cs.map Char.toLower

/-- Count of newline characters, used for `content[:pos].count("\n")`. -/
def countNl (cs : List Char) : ℕ :=
  cs.countP (· = '\n')

/-- Python slice `cs[a:b]` for non-negative bounds. -/
def pySlice (cs : List Char) (a b : ℕ) : List Char :=
  (cs.take b).drop a

/-- Python `haystack.find(needle)`: index of the first occurrence of
`needle` as a contiguous subsequence, `none` where Python returns `-1`. -/
def pyFind (hay needle : List Char) : Option ℕ :=
  match hay with
  | [] => if needle.isEmpty then some 0 else none
  | c :: t =>
    if needle.isPrefixOf (c :: t) then some 0 else (pyFind t needle).map (· + 1)

/-- Python `needle in haystack` for strings. -/
def pyContainsSub (hay needle : List Char) : Bool :=
  (pyFind hay needle).isSome

/-! ## C3 — Change detection (`enhanced_indexing.py`)

`EnhancedIndexingService._is_file_changed` consults the in-memory
`file_indexes` dict (keyed by `str(file_path)`).  The filesystem facts it
reads — `file_path.stat().st_mtime` and the SHA-256 of the file's current
raw bytes as computed by `_calculate_file_hash` — are supplied as
parameters `currentMtime` and `currentHash`. -/

/-- Record type of `FileIndex` (`enhanced_indexing.py`), restricted to the
fields `_is_file_changed` reads. -/
structure FileIndex where
  file_hash : String
  last_modified : ℚ
  collection_name : String
  deriving DecidableEq

/-- Lookup in the `file_indexes` dict, modelled as an association list. -/
def lookupIndex (m : List (String × FileIndex)) (k : String) : Option FileIndex :=
  (m.find? (fun p => p.1 = k)).map (·.2)

/-- Embedding of `EnhancedIndexingService._is_file_changed`
(`enhanced_indexing.py` lines 148-171). -/
def isFileChanged (fileIndexes : List (String × FileIndex)) (fileKey : String)
    (collectionName : String) (currentMtime : ℚ) (currentHash : String) : Bool :=
  match lookupIndex fileIndexes fileKey with
  | none => true
  | some fi =>
    if fi.collection_name ≠ collectionName then true
    else if fi.last_modified < currentMtime then true
    else if currentHash ≠ fi.file_hash then true
    else false

/-! ## Re-ranking (`reranking.py`) -/

/-- Record type of `SearchResult` (`hybrid_search.py`).  `start_line` and
`end_line` are `Optional[int]` in the source.  The `metadata` payload is
never consulted by any embedded operation and is omitted. -/
structure SearchResult where
  id : String
  content : String
  file_path : String
  start_line : Option ℤ
  end_line : Option ℤ
  vector_score : ℚ
  keyword_score : ℚ
  hybrid_score : ℚ
  deriving DecidableEq

/-- Record type of `ReRankedResult` (`reranking.py`). -/
structure ReRankedResult where
  original_result : SearchResult
  rerank_score : ℚ
  confidence : ℚ
  relevance_features : List (String × ℚ)
  deriving DecidableEq

/-- Python `d.get(k, 0)` on a float-valued dict. -/
def lookupQ (m : List (String × ℚ)) (k : String) : ℚ :=
  ((m.find? (fun p => p.1 = k)).map (·.2)).getD 0

/-- Embedding of `ReRankingService._calculate_confidence` (`reranking.py`
lines 367-378). -/
def calculateConfidence (score : ℚ) (totalResults : ℕ) : ℚ :=
  let normalizedScore := max 0 (min 1 score)
  let resultFactor : ℚ := 1 - (totalResults : ℚ) / 100
  let confidence := normalizedScore * (7/10 + 3/10 * resultFactor)
  max (1/10) (min 1 confidence)

/-- The confidence formula exactly as C6 states it, including the
`min(1, result_count/100)` clamp that the source does not perform. -/
def claimedConfidenceC6 (score : ℚ) (resultCount : ℕ) : ℚ :=
  max (1/10) (min 1
    ((max 0 (min 1 score)) * (7/10 + 3/10 * (1 - min 1 ((resultCount : ℚ) / 100)))))

/-- Python's stable `re_ranked.sort(key=lambda x: x.rerank_score,
reverse=True)`. -/
def sortByRerankDesc (l : List ReRankedResult) : List ReRankedResult :=
  l.insertionSort (fun a b => b.rerank_score ≤ a.rerank_score)

/-- Oracle view of the `ReRankingService` state: whether the two models
initialised, and what they return.  `crossPredict query contents` stands
for `cross_encoder.predict([[query, c] for c in contents])`;
`semanticSim query contents` stands for the row of cosine similarities
computed from the sentence-transformer embeddings. -/
structure RerankService where
  hasCrossEncoder : Bool
  hasSentenceModel : Bool
  crossPredict : String → List String → List ℚ
  semanticSim : String → List String → List ℚ

/-- Embedding of `ReRankingService._basic_rerank` (`reranking.py` lines
340-365). -/
def basicRerank (results : List SearchResult) (topK : ℕ) : List ReRankedResult :=
  let reRanked := results.map (fun r =>
    { original_result := r
      rerank_score := r.hybrid_score
      confidence := calculateConfidence r.hybrid_score results.length
      relevance_features :=
        [("vector_score", r.vector_score), ("keyword_score", r.keyword_score),
         ("hybrid_score", r.hybrid_score)] })
  (sortByRerankDesc reRanked).take topK

/-- Embedding of `ReRankingService._rerank_with_cross_encoder`
(`reranking.py` lines 88-123).  `zip` truncates to the shorter list, as in
Python. -/
def rerankWithCrossEncoder (svc : RerankService) (query : String)
    (results : List SearchResult) (topK : ℕ) : List ReRankedResult :=
  if ¬ svc.hasCrossEncoder ∨ results.length < 2 then basicRerank results topK
  else
    let scores := svc.crossPredict query (results.map (·.content))
    let reRanked := (results.zip scores).map (fun p =>
      { original_result := p.1
        rerank_score := p.2
        confidence := calculateConfidence p.2 results.length
        relevance_features := [("cross_encoder_score", p.2)] })
    (sortByRerankDesc reRanked).take topK

/-- Embedding of `ReRankingService._rerank_with_semantic_similarity`
(`reranking.py` lines 125-163). -/
def rerankWithSemanticSimilarity (svc : RerankService) (query : String)
    (results : List SearchResult) (topK : ℕ) : List ReRankedResult :=
  if ¬ svc.hasSentenceModel ∨ results.length < 2 then basicRerank results topK
  else
    let sims := svc.semanticSim query (results.map (·.content))
    let reRanked := (results.zip sims).map (fun p =>
      { original_result := p.1
        rerank_score := p.2
        confidence := calculateConfidence p.2 results.length
        relevance_features := [("semantic_similarity", p.2)] })
    (sortByRerankDesc reRanked).take topK

/-- Code file extensions carrying the full `file_type_bonus`. -/
def codeExtensions : List (List Char) :=
  ["py".toList, "js".toList, "ts".toList, "java".toList, "cpp".toList,
   "c".toList, "go".toList, "rs".toList]

/-- Embedding of `ReRankingService._extract_relevance_features`
(`reranking.py` lines 211-256).  Returns `none` where the source raises:
`ZeroDivisionError` when the query has no words, `TypeError` when
`start_line` is `None` (the `position_bonus` arithmetic). -/
def extractRelevanceFeatures (query : String) (result : SearchResult) :
    Option (List (String × ℚ)) :=
  let queryLower := pyLower query.toList
  let contentLower := pyLower result.content.toList
  let exactMatch : ℚ := if pyContainsSub contentLower queryLower then 1 else 0
  let queryWords := pySplitWs queryLower
  let contentWords := pySplitWs contentLower
  if queryWords = [] then none
  else
    let matchCount := (queryWords.filter (fun w => contentWords.contains w)).length
    let keywordDensity : ℚ :=
      if contentWords ≠ [] then (matchCount : ℚ) / (queryWords.length : ℚ) else 0
    match result.start_line with
    | none => none
    | some sl =>
      let positionBonus : ℚ := max 0 (1 - (sl : ℚ) / 1000)
      let contentLength := result.content.toList.length
      let lengthBonus : ℚ :=
        if contentLength ≤ 200 then (contentLength : ℚ) / 200
        else 200 / (contentLength : ℚ)
      let fileExt := (pySplitOn '.' (pyLower result.file_path.toList)).getLastD []
      let fileTypeBonus : ℚ := if codeExtensions.contains fileExt then 1 else 4/5
      some [("exact_match", exactMatch), ("keyword_density", keywordDensity),
            ("position_bonus", positionBonus), ("length_bonus", lengthBonus),
            ("file_type_bonus", fileTypeBonus), ("vector_score", result.vector_score)]

/-- The feature weight table of `_rerank_with_features` (`reranking.py`
lines 177-184), in dict insertion order. -/
def featureWeights : List (String × ℚ) :=
  [("exact_match", 3/10), ("keyword_density", 1/5), ("position_bonus", 3/20),
   ("length_bonus", 1/10), ("file_type_bonus", 3/20), ("vector_score", 1/10)]

/-- Embedding of `ReRankingService._rerank_with_features` (`reranking.py`
lines 165-209).  An exception while extracting features for any result is
caught by the method's `except`, which falls back to `_basic_rerank`. -/
def rerankWithFeatures (query : String) (results : List SearchResult)
    (topK : ℕ) : List ReRankedResult :=
  match results.mapM (fun r =>
      (extractRelevanceFeatures query r).map (fun fs => (r, fs))) with
  | none => basicRerank results topK
  | some pairs =>
    let reRanked := pairs.map (fun p =>
      let weightedScore :=
        featureWeights.foldl (fun acc fw => acc + lookupQ p.2 fw.1 * fw.2) 0
      { original_result := p.1
        rerank_score := weightedScore
        confidence := calculateConfidence weightedScore results.length
        relevance_features := p.2 })
    (sortByRerankDesc reRanked).take topK

/-- Python dict update `d[k] = v` (replace first occurrence in insertion
order, else append). -/
def dictSetQ (m : List (String × ℚ)) (k : String) (v : ℚ) : List (String × ℚ) :=
  match m with
  | [] => [(k, v)]
  | (k', v') :: rest =>
    if k' = k then (k', v) :: rest else (k', v') :: dictSetQ rest k v

/-- Python `d.update(other)` for float-valued dicts. -/
def dictUpdateQ (m other : List (String × ℚ)) : List (String × ℚ) :=
  other.foldl (fun acc kv => dictSetQ acc kv.1 kv.2) m

/-- The `scores.append(...)`/`weights.append(...)` pair contributed by one
signal of `_hybrid_rerank` for index `i`: the empty contribution when the
signal's score list is empty, `none` where indexing raises `IndexError`. -/
def signalEntry (l : List ℚ) (i : ℕ) (w : ℚ) : Option (List (ℚ × ℚ)) :=
  if l.isEmpty then some [] else (l.get? i).map (fun s => [(s, w)])

/-- The `all_features.update(feature_results[i].relevance_features)` step
of `_hybrid_rerank`, `none` where indexing raises `IndexError`. -/
def featuresEntry (featureScores : List ℚ) (featureResults : List ReRankedResult)
    (i : ℕ) (base : List (String × ℚ)) : Option (List (String × ℚ)) :=
  if featureScores.isEmpty then some base
  else (featureResults.get? i).map (fun fr => dictUpdateQ base fr.relevance_features)

/-- One iteration of the combination loop of `_hybrid_rerank`
(`reranking.py` lines 287-328) for the result at index `i`.  Returns
`none` where the source raises `IndexError` (a score list that is
non-empty but shorter than `results`). -/
def hybridCombineAt (results : List SearchResult)
    (crossScores semScores featureScores : List ℚ)
    (featureResults : List ReRankedResult) (i : ℕ) : Option ReRankedResult :=
  match results.get? i, signalEntry crossScores i (2/5),
      signalEntry semScores i (3/10), signalEntry featureScores i (3/10) with
  | some result, some cs, some ss, some fs =>
    let scoreWeights := cs ++ ss ++ fs
    let weightedScore :=
      if scoreWeights = [] then result.hybrid_score
      else (scoreWeights.map (fun p => p.1 * p.2)).sum /
           (scoreWeights.map (·.2)).sum
    let base0 := [("hybrid_score", weightedScore)]
    let base1 := if crossScores.isEmpty then base0
                 else base0 ++ [("cross_encoder_score", (crossScores.get? i).getD 0)]
    let base2 := if semScores.isEmpty then base1
                 else base1 ++ [("semantic_similarity", (semScores.get? i).getD 0)]
    (featuresEntry featureScores featureResults i base2).map (fun allFeatures =>
      { original_result := result
        rerank_score := weightedScore
        confidence := calculateConfidence weightedScore results.length
        relevance_features := allFeatures })
  | _, _, _, _ => none

/-- The `cross_encoder_scores` list of `_hybrid_rerank` (`reranking.py`
lines 264-272). -/
def hybridCrossScores (svc : RerankService) (query : String)
    (results : List SearchResult) : List ℚ :=
  if svc.hasCrossEncoder ∧ 1 < results.length then
    (rerankWithCrossEncoder svc query results results.length).map (·.rerank_score)
  else []

/-- The `semantic_scores` list of `_hybrid_rerank` (`reranking.py` lines
274-278). -/
def hybridSemScores (svc : RerankService) (query : String)
    (results : List SearchResult) : List ℚ :=
  if svc.hasSentenceModel ∧ 1 < results.length then
    (rerankWithSemanticSimilarity svc query results results.length).map (·.rerank_score)
  else []

/-- The `feature_results` list of `_hybrid_rerank` (`reranking.py` lines
280-283). -/
def hybridFeatureResults (query : String) (results : List SearchResult) :
    List ReRankedResult :=
  rerankWithFeatures query results results.length

/-- Embedding of `ReRankingService._hybrid_rerank` (`reranking.py` lines
258-338).  An `IndexError` in the combination loop is caught by the
method's `except` and falls back to `_basic_rerank`. -/
def hybridRerank (svc : RerankService) (query : String)
    (results : List SearchResult) (topK : ℕ) : List ReRankedResult :=
  match (List.range results.length).mapM
      (hybridCombineAt results (hybridCrossScores svc query results)
        (hybridSemScores svc query results)
        ((hybridFeatureResults query results).map (·.rerank_score))
        (hybridFeatureResults query results)) with
  | none => basicRerank results topK
  | some reRanked => (sortByRerankDesc reRanked).take topK

/-- Embedding of `ReRankingService.rerank_results` (`reranking.py` lines
56-86).  The outer `except` is unreachable in the model because every
method is total. -/
def rerankResults (svc : RerankService) (query : String)
    (results : List SearchResult) (topK : ℕ) (method : String) :
    List ReRankedResult :=
  if results = [] then []
  else if method = "cross_encoder" ∧ svc.hasCrossEncoder then
    rerankWithCrossEncoder svc query results topK
  else if method = "semantic_similarity" ∧ svc.hasSentenceModel then
    rerankWithSemanticSimilarity svc query results topK
  else if method = "feature_based" then
    rerankWithFeatures query results topK
  else if method = "hybrid" then
    hybridRerank svc query results topK
  else basicRerank results topK

/-! ## Diversification (`reranking.py` lines 380-454)

`_calculate_content_similarity` is embedded in the deterministic state of
the service: with no sentence model (and equally in the `except` fallback)
it computes the Jaccard word-overlap of the lowercased word sets. -/

/-- Embedding of `ReRankingService._calculate_content_similarity`
(`reranking.py` lines 419-454), word-overlap path. -/
def calcContentSimilarity (content1 content2 : String) : ℚ :=
  let words1 := (pySplitWs (pyLower content1.toList)).toFinset
  let words2 := (pySplitWs (pyLower content2.toList)).toFinset
  if words1 = ∅ ∨ words2 = ∅ then 0
  else
    let intersection := words1 ∩ words2
    let union := words1 ∪ words2
    if union = ∅ then 0 else (intersection.card : ℚ) / (union.card : ℚ)

/-- The candidate loop of `diversify_results` (`reranking.py` lines
393-410): `selected` is the `diversified` accumulator, `rest` the
remaining candidates in rank order. -/
def diversifyLoop (θ : ℚ) (maxResults : ℕ) (selected : List ReRankedResult) :
    List ReRankedResult → List ReRankedResult
  | [] => selected
  | r :: rs =>
    if maxResults ≤ selected.length then selected
    else if selected.any (fun s =>
        θ < calcContentSimilarity r.original_result.content
              s.original_result.content) then
      diversifyLoop θ maxResults selected rs
    else diversifyLoop θ maxResults (selected ++ [r]) rs

/-- Embedding of `ReRankingService.diversify_results` (`reranking.py`
lines 380-417).  The `except` fallback is unreachable in the model. -/
def diversifyResults (results : List ReRankedResult) (θ : ℚ)
    (maxResults : ℕ) : List ReRankedResult :=
  if results.length ≤ 1 then results
  else
    match results with
    | [] => []
    | r0 :: rest => diversifyLoop θ maxResults [r0] rest

/-- Concrete `SearchResult` used by witnesses and counterexamples. -/
def sampleResult (i : String) (c : String) : SearchResult :=
  { id := i, content := c, file_path := "a.py", start_line := some 1,
    end_line := some 2, vector_score := 1/2, keyword_score := 1/4,
    hybrid_score := 3/4 }

/-- Concrete `ReRankedResult` used by witnesses and counterexamples. -/
def sampleReRanked (i : String) (c : String) : ReRankedResult :=
  { original_result := sampleResult i c, rerank_score := 1/2,
    confidence := 1/2, relevance_features := [] }

/-- Concrete service state (neither model initialised) used by witnesses. -/
def sampleService : RerankService :=
  { hasCrossEncoder := false, hasSentenceModel := false,
    crossPredict := fun _ _ => [], semanticSim := fun _ _ => [] }

/-- Expected output of a concrete `rerank_results` run on the unknown
method `"other"` (basic fallback), used by the C7 witness. -/
def rerankW : ReRankedResult :=
  { original_result := sampleResult "1" "x"
    rerank_score := 3/4
    confidence := calculateConfidence (3/4) 1
    relevance_features :=
      [("vector_score", 1/2), ("keyword_score", 1/4), ("hybrid_score", 3/4)] }

/-! ## Hybrid search and reciprocal rank fusion (`hybrid_search.py`) -/

/-- A vector-search hit as read by `reciprocal_rank_fusion` and the final
score lookup: only `result["id"]` and `result["score"]` are consulted. -/
structure VDoc where
  id : String
  score : ℚ
  deriving DecidableEq

/-- An entry of `self.documents` (the BM25 corpus), restricted to the keys
the embedded code reads. -/
structure BDoc where
  id : String
  content : String
  file_path : String
  start_line : Option ℤ
  end_line : Option ℤ
  deriving DecidableEq

/-- Python `fusion_scores[k] = fusion_scores.get(k, 0) + v` on an
insertion-ordered dict. -/
def addScore (m : List (String × ℚ)) (k : String) (v : ℚ) : List (String × ℚ) :=
  match m with
  | [] => [(k, v)]
  | (k', v') :: rest =>
    if k' = k then (k', v' + v) :: rest else (k', v') :: addScore rest k v

/-- Read a fused score back out of the dict (0 when absent): first
occurrence wins, matching Python dict lookup on the unique-key dicts
built by `addScore`. -/
def getScore : List (String × ℚ) → String → ℚ
  | [], _ => 0
  | (k', v) :: rest, k => if k' = k then v else getScore rest k

/-- The vector loop of `reciprocal_rank_fusion` (`hybrid_search.py` lines
152-154): `rank` is the enumeration counter. -/
def rrfFoldVector (k : ℕ) (rank : ℕ) : List VDoc → List (String × ℚ) →
    List (String × ℚ)
  | [], m => m
  | d :: rest, m =>
    rrfFoldVector k (rank + 1) rest (addScore m d.id (1 / ((k : ℚ) + rank + 1)))

/-- The keyword loop of `reciprocal_rank_fusion` (`hybrid_search.py` lines
157-162): an index outside `self.documents` contributes nothing. -/
def rrfFoldKeyword (docs : List BDoc) (k : ℕ) (rank : ℕ) :
    List (ℕ × ℚ) → List (String × ℚ) → List (String × ℚ)
  | [], m => m
  | (idx, _s) :: rest, m =>
    match docs.get? idx with
    | some d =>
      rrfFoldKeyword docs k (rank + 1) rest
        (addScore m d.id (1 / ((k : ℚ) + rank + 1)))
    | none => rrfFoldKeyword docs k (rank + 1) rest m

/-- The `fusion_scores` dict after both loops of
`reciprocal_rank_fusion`; both input lists are truncated to their first
`k` entries by the source's `[:k]` slices. -/
def fusionScores (docs : List BDoc) (vres : List VDoc) (kres : List (ℕ × ℚ))
    (k : ℕ) : List (String × ℚ) :=
  rrfFoldKeyword docs k 0 (kres.take k) (rrfFoldVector k 0 (vres.take k) [])

instance : IsTotal (String × ℚ) (fun a b => b.2 ≤ a.2) :=
  ⟨fun a b => le_total b.2 a.2⟩

instance : IsTrans (String × ℚ) (fun a b => b.2 ≤ a.2) :=
  ⟨fun _ _ _ h1 h2 => le_trans h2 h1⟩

/-- Python's stable `sorted(fusion_scores.items(), key=lambda x: x[1],
reverse=True)`. -/
def sortPairsDesc (l : List (String × ℚ)) : List (String × ℚ) :=
  l.insertionSort (fun a b => b.2 ≤ a.2)

/-- The `doc_lookup` dict of `reciprocal_rank_fusion`: built by iterating
`self.documents`, so a later duplicate id overwrites an earlier one. -/
def docLookup (docs : List BDoc) (did : String) : Option BDoc :=
  docs.reverse.find? (fun d => d.id = did)

/-- Embedding of `HybridSearchService.reciprocal_rank_fusion`
(`hybrid_search.py` lines 136-175).  Each output pair is a document dict
copy together with its `hybrid_score`. -/
def reciprocalRankFusion (docs : List BDoc) (vres : List VDoc)
    (kres : List (ℕ × ℚ)) (k : ℕ) : List (BDoc × ℚ) :=
  (sortPairsDesc (fusionScores docs vres kres k)).filterMap (fun p =>
    (docLookup docs p.1).map (fun d => (d, p.2)))

/-- Reference sum written from the spec's words: walking a list of
per-rank document ids (`none` for a keyword index outside the corpus)
starting at rank `r`, add `1/(k+rank+1)` whenever the id is `did`. -/
def rrfContrib (k : ℕ) : ℕ → List (Option String) → String → ℚ
  | _, [], _ => 0
  | r, i :: rest, did =>
    (if i = some did then (1 : ℚ) / ((k : ℚ) + r + 1) else 0) +
      rrfContrib k (r + 1) rest did

/-- The fused score C2 claims, restricted to the first `k` ranks of each
list (the amended characterisation of the source's behaviour). -/
def rrfScoreSpec (docs : List BDoc) (vres : List VDoc) (kres : List (ℕ × ℚ))
    (k : ℕ) (did : String) : ℚ :=
  rrfContrib k 0 ((vres.take k).map (fun d => some d.id)) did +
    rrfContrib k 0 ((kres.take k).map (fun e => (docs.get? e.1).map (·.id))) did

/-- The fused score exactly as C2 states it: a contribution for every
rank at which the document appears, with no truncation at `k`. -/
def rrfScoreClaimed (docs : List BDoc) (vres : List VDoc) (kres : List (ℕ × ℚ))
    (k : ℕ) (did : String) : ℚ :=
  rrfContrib k 0 (vres.map (fun d => some d.id)) did +
    rrfContrib k 0 (kres.map (fun e => (docs.get? e.1).map (·.id))) did

/-- The number of ranks (within the first `k` of each list) at which a
document appears, used to state "appears at exactly one rank". -/
def rrfOccCount (docs : List BDoc) (vres : List VDoc) (kres : List (ℕ × ℚ))
    (k : ℕ) (did : String) : ℕ :=
  ((vres.take k).map (fun d => some d.id)).countP (· = some did) +
    ((kres.take k).map (fun e => (docs.get? e.1).map (·.id))).countP (· = some did)

/-- Vector hit on document `a`, used by the C2 counterexample. -/
def vdA : VDoc := { id := "a", score := 0 }

/-- Vector hit on document `b`, used by the C2 counterexample. -/
def vdB : VDoc := { id := "b", score := 0 }

/-- Concrete vector-result list for the C2 counterexample: 60 hits for
document `a` followed by one hit for document `b` at rank 60. -/
def rrfVresCE : List VDoc :=
  List.replicate 60 vdA ++ [vdB]

/-- Oracle view of the `HybridSearchService` state (`hybrid_search.py`):
the BM25 corpus, model/index availability flags, and the three external
backends.  `vectorBackend` stands for `embed_query` + `qdrant_client.search`
(lines 103-113), `keywordBackend` for the BM25 scoring pipeline of
`keyword_search` (lines 80-93), `crossPredictB` for
`cross_encoder.predict`; an `Except.error` is a raised exception. -/
structure HybridService where
  documents : List BDoc
  hasBm25 : Bool
  hasCrossEncoder : Bool
  vectorBackend : String → String → ℕ → Except String (List VDoc)
  keywordBackend : String → ℕ → Except String (List (ℕ × ℚ))
  crossPredictB : List (String × String) → Except String (List ℚ)

/-- Embedding of `HybridSearchService.vector_search` (`hybrid_search.py`
lines 99-119): an exception from the backend degrades to `[]`. -/
def vectorSearch (svc : HybridService) (query collectionName : String)
    (topK : ℕ) : List VDoc :=
  match svc.vectorBackend query collectionName topK with
  | Except.ok r => r
  | Except.error _ => []

/-- Embedding of `HybridSearchService.keyword_search` (`hybrid_search.py`
lines 73-97): no index or an exception degrades to `[]`. -/
def keywordSearch (svc : HybridService) (query : String) (topK : ℕ) :
    List (ℕ × ℚ) :=
  if ¬ svc.hasBm25 then []
  else
    match svc.keywordBackend query topK with
    | Except.ok r => r
    | Except.error _ => []

/-- Embedding of `HybridSearchService.rerank_with_cross_encoder`
(`hybrid_search.py` lines 247-271) applied to the fused document list:
documents beyond the scored span keep the default key 0; a predict
exception degrades to `documents[:top_k]`. -/
def crossRerankStep (svc : HybridService) (query : String)
    (combined : List (BDoc × ℚ)) (topK : ℕ) : List (BDoc × ℚ) :=
  match svc.crossPredictB ((combined.take 50).map (fun dc => (query, dc.1.content))) with
  | Except.error _ => combined.take topK
  | Except.ok scores =>
    let keyed := combined.enum.map (fun p => (p.2, scores.getD p.1 0))
    ((keyed.insertionSort (fun a b => b.2 ≤ a.2)).map (·.1)).take topK

/-- The conversion loop of `hybrid_search` step 5 (`hybrid_search.py`
lines 207-236): recover the original vector and keyword scores by first
match on id. -/
def toSearchResult (docs : List BDoc) (vres : List VDoc)
    (kres : List (ℕ × ℚ)) (dc : BDoc × ℚ) : SearchResult :=
  { id := dc.1.id
    content := dc.1.content
    file_path := dc.1.file_path
    start_line := dc.1.start_line
    end_line := dc.1.end_line
    vector_score := ((vres.find? (fun vr => vr.id = dc.1.id)).map (·.score)).getD 0
    keyword_score := ((kres.find? (fun kr =>
      ((docs.get? kr.1).map (·.id)) = some dc.1.id)).map (·.2)).getD 0
    hybrid_score := dc.2 }

/-- Embedding of `HybridSearchService.hybrid_search` (`hybrid_search.py`
lines 177-245).  The outer `except` (returning `[]`) is unreachable in
the model because every step is total. -/
def hybridSearch (svc : HybridService) (query collectionName : String)
    (topK : ℕ) : List SearchResult :=
  let vres := vectorSearch svc query collectionName (topK * 2)
  let kres := keywordSearch svc query (topK * 2)
  let combined := reciprocalRankFusion svc.documents vres kres 60
  let combined2 :=
    if svc.hasCrossEncoder ∧ 1 < combined.length then
      crossRerankStep svc query combined topK
    else combined
  (combined2.take topK).map (toSearchResult svc.documents vres kres)

/-- Concrete corpus document used by the C9 counterexample and witness. -/
def sampleBDoc : BDoc :=
  { id := "d"
    content := "hello"
    file_path := "d.py"
    start_line := some 1
    end_line := some 2 }

/-- Concrete service for the C9 counterexample: the vector backend raises,
the keyword backend succeeds with one hit on the one-document corpus. -/
def hybridSvcCE : HybridService :=
  { documents := [sampleBDoc]
    hasBm25 := true
    hasCrossEncoder := false
    vectorBackend := fun _ _ _ => Except.error "connection refused"
    keywordBackend := fun _ _ => Except.ok [(0, 1)]
    crossPredictB := fun _ => Except.ok [] }

/-- Concrete service for the C9 witness: both backends raise. -/
def hybridSvcW : HybridService :=
  { documents := [sampleBDoc]
    hasBm25 := true
    hasCrossEncoder := false
    vectorBackend := fun _ _ _ => Except.error "connection refused"
    keywordBackend := fun _ _ => Except.error "bm25 backend down"
    crossPredictB := fun _ => Except.ok [] }

/-! ## Semantic chunking (`semantic_chunking.py`) -/

/-- Values stored in a chunk's `metadata` dict. -/
inductive MetaVal where
  | str : String → MetaVal
  | nat : ℕ → MetaVal
  | strList : List String → MetaVal
  | optStr : Option String → MetaVal
  | bool : Bool → MetaVal
  deriving DecidableEq

/-- Record type of `Chunk` (`semantic_chunking.py` lines 19-30), with
`content` as a code-point list. -/
structure Chunk where
  id : String
  content : List Char
  file_path : String
  start_line : ℕ
  end_line : ℕ
  chunk_type : String
  language : String
  metadata : List (String × MetaVal)
  deriving DecidableEq

/-- The common shape of every chunk id the service builds:
`f"{file_path}:{kind}:{key}:{start}-{end}"`. -/
def mkChunkId (filePath kind key : String) (s e : ℕ) : String :=
  filePath ++ ":" ++ kind ++ ":" ++ key ++ ":" ++ toString s ++ "-" ++ toString e

/-- Python dict update `d[k] = v` for metadata dicts. -/
def dictSetMeta (m : List (String × MetaVal)) (k : String) (v : MetaVal) :
    List (String × MetaVal) :=
  match m with
  | [] => [(k, v)]
  | (k', v') :: rest =>
    if k' = k then (k', v) :: rest else (k', v') :: dictSetMeta rest k v

/-- Python `d.get(k)` on a metadata dict. -/
def lookupMeta (m : List (String × MetaVal)) (k : String) : Option MetaVal :=
  (m.find? (fun p => p.1 = k)).map (·.2)

/-- Embedding of `SemanticChunkingService.count_tokens`
(`semantic_chunking.py` lines 518-526) in the deterministic
tokenizer-unavailable state: `len(text.split())`.  The `tiktoken` encoder
taken in the other state is an external library. -/
def countTokens (cs : List Char) : ℕ :=
  (pySplitWs cs).length

/-- The sub-chunk built when `_split_large_chunk` flushes `current_lines`
mid-loop (`semantic_chunking.py` lines 559-571). -/
def mkSubChunk (chunk : Chunk) (subCount : ℕ) (currentLines : List (List Char)) :
    Chunk :=
  { id := chunk.id ++ "_sub_" ++ toString subCount
    content := pyJoinNl currentLines
    file_path := chunk.file_path
    start_line := chunk.start_line + subCount
    end_line := chunk.start_line + currentLines.length
    chunk_type := chunk.chunk_type
    language := chunk.language
    metadata := dictSetMeta chunk.metadata "parent_chunk" (MetaVal.str chunk.id) }

/-- The sub-chunk built for the remaining lines after the loop
(`semantic_chunking.py` lines 580-592).  `start_line` uses truncated
natural subtraction; CPython would go negative on the same degenerate
inputs. -/
def mkSubChunkFinal (chunk : Chunk) (subCount : ℕ)
    (currentLines : List (List Char)) : Chunk :=
  { id := chunk.id ++ "_sub_" ++ toString subCount
    content := pyJoinNl currentLines
    file_path := chunk.file_path
    start_line := chunk.end_line - currentLines.length + 1
    end_line := chunk.end_line
    chunk_type := chunk.chunk_type
    language := chunk.language
    metadata := dictSetMeta chunk.metadata "parent_chunk" (MetaVal.str chunk.id) }

/-- The accumulation loop of `_split_large_chunk` (`semantic_chunking.py`
lines 555-592): `subChunks` and `currentLines`/`currentTokens` mirror the
local state. -/
def splitLoop (chunk : Chunk) (maxTokens : ℕ) :
    List (List Char) → List Chunk → List (List Char) → ℕ → List Chunk
  | [], subChunks, currentLines, _ =>
    if currentLines ≠ [] then
      subChunks ++ [mkSubChunkFinal chunk subChunks.length currentLines]
    else subChunks
  | line :: rest, subChunks, currentLines, currentTokens =>
    if maxTokens < currentTokens + countTokens line ∧ currentLines ≠ [] then
      splitLoop chunk maxTokens rest
        (subChunks ++ [mkSubChunk chunk subChunks.length currentLines])
        [line] (countTokens line)
    else
      splitLoop chunk maxTokens rest subChunks (currentLines ++ [line])
        (currentTokens + countTokens line)

/-- Embedding of `SemanticChunkingService._split_large_chunk`
(`semantic_chunking.py` lines 546-594). -/
def splitLargeChunk (chunk : Chunk) (maxTokens : ℕ) : List Chunk :=
  splitLoop chunk maxTokens (pySplitNl chunk.content) [] [] 0

/-- Embedding of `SemanticChunkingService.optimize_chunk_size`
(`semantic_chunking.py` lines 528-544). -/
def optimizeChunkSize (chunks : List Chunk) (maxTokens : ℕ) : List Chunk :=
  (chunks.map (fun chunk =>
    if countTokens chunk.content ≤ maxTokens then [chunk]
    else splitLargeChunk chunk maxTokens)).flatten

/-- C4's token-budget property for one chunk: within budget, or a single
line whose token count alone exceeds the budget. -/
def ChunkTokenOK (maxTokens : ℕ) (ch : Chunk) : Prop :=
  countTokens ch.content ≤ maxTokens ∨
    ∃ l, pySplitNl ch.content = [l] ∧ maxTokens < countTokens l

/-- C4's sub-chunk shape: the id appends `_sub_{n}` to the parent id and
the metadata carries a `parent_chunk` reference to the parent id. -/
def SubChunkOf (parent ch : Chunk) : Prop :=
  ∃ n : ℕ, ch.id = parent.id ++ "_sub_" ++ toString n ∧
    lookupMeta ch.metadata "parent_chunk" = some (MetaVal.str parent.id)

/-- Reference regrouping of lines written for the `_split_large_chunk`
proofs: the sequence of flushed sub-chunk contents produced from a list of
pending lines and the remaining lines. -/
def contentGroups (maxTokens : ℕ) : List (List Char) → ℕ → List (List Char) →
    List (List Char)
  | cur, _, [] => if cur ≠ [] then [pyJoinNl cur] else []
  | cur, curTok, line :: rest =>
    if maxTokens < curTok + countTokens line ∧ cur ≠ [] then
      pyJoinNl cur :: contentGroups maxTokens [line] (countTokens line) rest
    else contentGroups maxTokens (cur ++ [line]) (curTok + countTokens line) rest

/-- A concrete oversized chunk (every letter is one token), used by the C4
witness. -/
def bigChunkW : Chunk :=
  { id := "a.py:function:foo:0-2"
    content := "w w w\nx y z".toList
    file_path := "a.py"
    start_line := 1
    end_line := 3
    chunk_type := "function"
    language := "python"
    metadata := [("name", MetaVal.str "foo")] }

/-- First sub-chunk of the concrete `optimize_chunk_size` run, used by the
C4 witness. -/
def subW : Chunk :=
  (optimizeChunkSize [bigChunkW] 3).headD bigChunkW

/-! ## Markdown chunking — `SemanticChunkingService._chunk_markdown`
(`semantic_chunking.py` lines 293-363)

The section split applies
`re.split(r"^(#{1,6})\s+(.+)$", content, flags=re.MULTILINE)`.  The
pattern is embedded character by character: a match starts at the
beginning of the string or right after a newline, takes a maximal run of
one to six `#`, at least one whitespace character (which may span
newlines), and a non-empty run of non-newline characters ending at a line
end; the greedy `\s+` backtracks only when the string ends inside the
whitespace run.  `re.split` with capture groups keeps the text between
matches plus the two groups — the whitespace between the hashes and the
title belongs to neither group and is dropped. -/

/-- Length of the maximal prefix run satisfying `p`. -/
def countRun (p : Char → Bool) (cs : List Char) : ℕ :=
  (cs.takeWhile p).length

/-- MULTILINE `^`: position 0 or right after a newline. -/
def anchoredAt (cs : List Char) (p : ℕ) : Bool :=
  decide (p = 0) || decide (cs.get? (p - 1) = some '\n')

/-- Largest index of a non-newline character. -/
def lastNonNlIdx (l : List Char) : Option ℕ :=
  ((l.enum.filter (fun q => q.2 ≠ '\n')).map (·.1)).getLast?

/-- Attempt to match `(#{1,6})\s+(.+)$` at position `p` (the `^` anchor is
checked by the caller); returns `(h, r, e)` with hash run `[p, p+h)`,
title group `[r, e)` and match end `e`. -/
def tryHeaderAt (cs : List Char) (p : ℕ) : Option (ℕ × ℕ × ℕ) :=
  let suffix := cs.drop p
  let h := countRun (· = '#') suffix
  if 1 ≤ h ∧ h ≤ 6 then
    let afterH := suffix.drop h
    let w := countRun isPyWs afterH
    if w = 0 then none
    else
      let afterW := afterH.drop w
      if afterW ≠ [] then
        some (h, p + h + w, p + h + w + countRun (· ≠ '\n') afterW)
      else
        match lastNonNlIdx ((afterH.take w).drop 1) with
        | none => none
        | some j0 =>
          let r := p + h + 1 + j0
          some (h, r, r + countRun (· ≠ '\n') ((afterH.drop 1).drop j0))
  else none

/-- Leftmost anchored header match at a position `≥ s`; the fuel bounds
the scan and `cs.length + 1` always suffices. -/
def findHeaderFrom (cs : List Char) : ℕ → ℕ → Option (ℕ × ℕ × ℕ × ℕ)
  | _, 0 => none
  | s, fuel + 1 =>
    if s < cs.length then
      if anchoredAt cs s then
        match tryHeaderAt cs s with
        | some (h, r, e) => some (s, h, r, e)
        | none => findHeaderFrom cs (s + 1) fuel
      else findHeaderFrom cs (s + 1) fuel
    else none

/-- The piece list produced by `re.split` with the two capture groups:
`[before, hashes, title, between, hashes, title, ..., tail]`.  Each match
ends strictly after its start, so `cs.length + 1` rounds of fuel always
suffice. -/
def reSplitHeadersFrom (cs : List Char) : ℕ → ℕ → List (List Char)
  | s, 0 => [cs.drop s]
  | s, fuel + 1 =>
    match findHeaderFrom cs s (cs.length + 1) with
    | none => [cs.drop s]
    | some (p, h, r, e) =>
      pySlice cs s p :: pySlice cs p (p + h) :: pySlice cs r e ::
        reSplitHeadersFrom cs e fuel

/-- `re.split(r"^(#{1,6})\s+(.+)$", content, flags=re.MULTILINE)`. -/
def reSplitHeaders (cs : List Char) : List (List Char) :=
  reSplitHeadersFrom cs 0 (cs.length + 1)

/-- The section loop of `_chunk_markdown` (`semantic_chunking.py` lines
304-337) over the piece triples starting at index 1; returns the chunks
plus the final `current_pos` and `section_number`. -/
def mdLoop (filePath : String) (content : List Char) :
    List (List Char) → ℕ → ℕ → (List Chunk × ℕ × ℕ)
  | header :: title :: sc :: more, currentPos, secNum =>
    let startLine := countNl (content.take currentPos)
    let sectionStart := currentPos + header.length + title.length
    let endLine := countNl (content.take (sectionStart + sc.length))
    let ch : Chunk :=
      { id := mkChunkId filePath "section" (toString secNum) startLine endLine
        content := header ++ title ++ sc
        file_path := filePath
        start_line := startLine + 1
        end_line := endLine + 1
        chunk_type := "section"
        language := "markdown"
        metadata := [("section_number", MetaVal.nat secNum),
          ("title", MetaVal.str (String.mk (pyStrip title))),
          ("level", MetaVal.nat header.length)] }
    match mdLoop filePath content more (sectionStart + sc.length) (secNum + 1) with
    | (rest, fin, num) => (ch :: rest, fin, num)
  | [header, title], currentPos, secNum =>
    let startLine := countNl (content.take currentPos)
    let sectionStart := currentPos + header.length + title.length
    let endLine := countNl (content.take sectionStart)
    let ch : Chunk :=
      { id := mkChunkId filePath "section" (toString secNum) startLine endLine
        content := header ++ title
        file_path := filePath
        start_line := startLine + 1
        end_line := endLine + 1
        chunk_type := "section"
        language := "markdown"
        metadata := [("section_number", MetaVal.nat secNum),
          ("title", MetaVal.str (String.mk (pyStrip title))),
          ("level", MetaVal.nat header.length)] }
    ([ch], sectionStart, secNum + 1)
  | _, currentPos, secNum => ([], currentPos, secNum)

/-- The remainder paragraph of `_chunk_markdown` (`semantic_chunking.py`
lines 339-361), emitted from the final `current_pos` and
`section_number`. -/
def mdRemainder (filePath : String) (content : List Char)
    (currentPos secNum : ℕ) : List Chunk :=
  if currentPos < content.length then
    if pyStrip (content.drop currentPos) ≠ [] then
      [{ id := mkChunkId filePath "paragraph" (toString secNum)
           (countNl (content.take currentPos)) (countNl content)
         content := content.drop currentPos
         file_path := filePath
         start_line := countNl (content.take currentPos) + 1
         end_line := countNl content + 1
         chunk_type := "paragraph"
         language := "markdown"
         metadata := [("section_number", MetaVal.nat secNum),
           ("is_footer", MetaVal.bool true)] }]
    else []
  else []

/-- Embedding of `SemanticChunkingService._chunk_markdown`
(`semantic_chunking.py` lines 293-363): the section loop's chunks plus the
remainder paragraph built from the loop's final position and counter. -/
def chunkMarkdown (filePath : String) (content : List Char) : List Chunk :=
  (mdLoop filePath content ((reSplitHeaders content).drop 1) 0 1).1 ++
    mdRemainder filePath content
      (mdLoop filePath content ((reSplitHeaders content).drop 1) 0 1).2.1
      (mdLoop filePath content ((reSplitHeaders content).drop 1) 0 1).2.2

/-- Markdown file used by the C8 counterexample. -/
def mdCE : List Char :=
  "# A\n# B\nxyz".toList

/-! ## Markdown chunking — `IndexingService._chunk_markdown_file`
(`indexing.py` lines 238-291) -/

/-- Record type of the chunk dicts built by `IndexingService`. -/
structure IdxChunk where
  id : String
  content : List Char
  start_line : ℕ
  end_line : ℕ
  ctype : String
  name : String
  language : String
  deriving DecidableEq

/-- The id shape `f"{relative_path}:{start_line}-{i - 1}"` of
`_chunk_markdown_file`. -/
def mkIdxId (relPath : String) (s e : ℕ) : String :=
  relPath ++ ":" ++ toString s ++ "-" ++ toString e

/-- Whether `re.match(r"^#{1,6}\s+(.+)$", line)` succeeds on a single
line (which contains no newline): one to six hashes, then at least one
whitespace character, then at least one further character. -/
def isMdHeaderLine (l : List Char) : Bool :=
  let h := countRun (· = '#') l
  if 1 ≤ h ∧ h ≤ 6 ∧ h + 2 ≤ l.length then
    match (l.drop h).head? with
    | some c => isPyWs c
    | none => false
  else false

/-- The header text `re.sub(r"^#{1,6}\s+", "", line).strip()`; when the
sub pattern does not match, the line is only stripped. -/
def mdHeaderName (l : List Char) : String :=
  let h := countRun (· = '#') l
  if 1 ≤ h ∧ h ≤ 6 ∧
      (match (l.drop h).head? with | some c => isPyWs c | none => false) = true then
    String.mk (pyStrip ((l.drop h).dropWhile isPyWs))
  else String.mk (pyStrip l)

/-- The section chunk emitted when a section closes at line `i`
(exclusive); `none` when the stripped content is 50 characters or
shorter. -/
def mdfEmit (relPath : String) (curSec : List (List Char)) (curHdr : String)
    (startLine endIdx endLineNum : ℕ) : List IdxChunk :=
  if curSec ≠ [] then
    if 50 < (pyStrip (pyJoinNl curSec)).length then
      [{ id := mkIdxId relPath startLine endIdx
         content := pyJoinNl curSec
         start_line := startLine + 1
         end_line := endLineNum
         ctype := "section"
         name := curHdr
         language := "markdown" }]
    else []
  else []

/-- The line loop of `_chunk_markdown_file` (`indexing.py` lines
250-289): `i` is the enumeration index, `total` the number of lines. -/
def mdfLoop (relPath : String) (total : ℕ) :
    List (List Char) → ℕ → List (List Char) → String → ℕ → List IdxChunk
  | [], _, curSec, curHdr, startLine =>
    mdfEmit relPath curSec curHdr startLine (total - 1) total
  | l :: rest, i, curSec, curHdr, startLine =>
    if isMdHeaderLine l then
      mdfEmit relPath curSec curHdr startLine (i - 1) i ++
        mdfLoop relPath total rest (i + 1) [l] (mdHeaderName l) i
    else mdfLoop relPath total rest (i + 1) (curSec ++ [l]) curHdr startLine

/-- Embedding of `IndexingService._chunk_markdown_file` (`indexing.py`
lines 238-291). -/
def chunkMarkdownFile (relPath : String) (content : List Char) : List IdxChunk :=
  let lines := pySplitNl content
  mdfLoop relPath lines.length lines 0 [] "Introduction" 0

/-- Markdown content whose single section is long enough to survive the
noise filter, used by the C8 witness. -/
def mdW : List Char :=
  "# Title\nThis section body is definitely longer than fifty characters in total.".toList

/-- The single chunk of the concrete `_chunk_markdown_file` run, used by
the C8 witness. -/
def idxW : IdxChunk :=
  (chunkMarkdownFile "b.md" mdW).headD
    { id := "", content := [], start_line := 0, end_line := 0, ctype := "",
      name := "", language := "" }

/-! ## Document chunking dispatch (`semantic_chunking.py` lines 57-516)

`chunk_document` picks a chunker from the file extension.  External
libraries appear as oracle fields of `ChunkOracles`: `pathlib`
(`Path(file_path).suffix`), the `ast` parser together with the node data
`ast.walk` yields (names, line numbers, `ast.get_docstring`, the
`ast.unparse`d decorators, argument names), the two `re.finditer` scans of
the JavaScript chunker, `yaml.safe_load`, and the availability flag of the
sentence-transformer model.  Every oracle is a Lean function, so it
returns equal values on equal inputs — the shallow-embedding form of "no
random or time-dependent value".  Character classes `\s` and `\w` are
embedded for ASCII text, matching the conventions above. -/

/-- The data `_extract_python_node` (`semantic_chunking.py` lines 164-216)
reads off an `ast.FunctionDef` / `ast.AsyncFunctionDef` / `ast.ClassDef`
node: whether it is a (possibly async) function rather than a class, its
`name`, its 1-based `lineno` and `end_lineno`, its docstring, the unparsed
decorator list, and the positional argument names. -/
structure PyNode where
  isFunction : Bool
  name : String
  lineno : ℕ
  end_lineno : ℕ
  docstring : Option String
  decorators : List String
  args : List String

/-- Outcome of `ast.parse(content)`: a node list (the
function/class nodes in `ast.walk` order), a `SyntaxError` (caught by
`_chunk_python_code`), or another exception — e.g. `ValueError` on null
bytes — which escapes the inner `except SyntaxError` handler and reaches
`chunk_document`'s own handler. -/
inductive PyParseResult where
  | ok : List PyNode → PyParseResult
  | syntaxError : PyParseResult
  | otherError : PyParseResult

/-- Oracles for the external libraries `chunk_document` calls; see the
section comment. `jsFunMatches` / `jsClassMatches` return the
`(match.start(), match.end())` spans of
`re.finditer(function_pattern, content)` and
`re.finditer(class_pattern, content)`.  `yamlParse` models
`yaml.safe_load`: an exception, a non-dict value (`none`), or the
insertion-ordered `(key, type(value).__name__)` items of a dict. -/
structure ChunkOracles where
  pathSuffix : String → String
  pyParse : List Char → PyParseResult
  hasSentenceModel : Bool
  jsFunMatches : List Char → List (ℕ × ℕ)
  jsClassMatches : List Char → List (ℕ × ℕ)
  yamlParse : List Char → Except Unit (Option (List (String × String)))

/-- `start_line = node.lineno - 1` (`semantic_chunking.py` line 169). -/
def pyNodeStart (node : PyNode) : ℕ :=
  node.lineno - 1

/-- `end_line = min(node.end_lineno - 1, len(lines) - 1)`
(`semantic_chunking.py` lines 170-175). -/
def pyNodeEnd (node : PyNode) (lines : List (List Char)) : ℕ :=
  min (node.end_lineno - 1) (lines.length - 1)

/-- The `node_type` tag (`semantic_chunking.py` lines 181-185). -/
def pyNodeType (node : PyNode) : String :=
  if node.isFunction then "function" else "class"

/-- Embedding of `SemanticChunkingService._extract_python_node`
(`semantic_chunking.py` lines 164-216). -/
def extractPythonNode (node : PyNode) (lines : List (List Char))
    (filePath : String) : Chunk :=
  { id := mkChunkId filePath (pyNodeType node) node.name (pyNodeStart node)
      (pyNodeEnd node lines)
    content := pyJoinNl ((lines.take (pyNodeEnd node lines + 1)).drop
      (pyNodeStart node))
    file_path := filePath
    start_line := pyNodeStart node + 1
    end_line := pyNodeEnd node lines + 1
    chunk_type := pyNodeType node
    language := "python"
    metadata := [("node_type", MetaVal.str (pyNodeType node)),
      ("name", MetaVal.str node.name),
      ("docstring", MetaVal.optStr node.docstring),
      ("decorators", MetaVal.strList node.decorators),
      ("arguments", MetaVal.strList
        (if node.isFunction then node.args else []))] }

/-- The chunk of `_chunk_by_lines` built for loop index `i`
(`semantic_chunking.py` lines 485-509). -/
def mkLinesChunk (filePath lang : String) (lines : List (List Char))
    (chunkSize i : ℕ) : Chunk :=
  { id := mkChunkId filePath "lines" (toString (i / chunkSize)) (i + 1)
      (min (i + chunkSize) lines.length)
    content := pyJoinNl ((lines.take (min (i + chunkSize) lines.length)).drop i)
    file_path := filePath
    start_line := i + 1
    end_line := min (i + chunkSize) lines.length
    chunk_type := "lines"
    language := lang
    metadata := [("line_count", MetaVal.nat
        ((lines.take (min (i + chunkSize) lines.length)).drop i).length),
      ("chunk_index", MetaVal.nat (i / chunkSize))] }

/-- The `range(0, len(lines), chunk_size)` loop of `_chunk_by_lines`;
`lines.length + 1` rounds of fuel cover every iteration for the chunk
sizes the service uses (50 and 30). -/
def linesLoop (filePath lang : String) (lines : List (List Char))
    (chunkSize : ℕ) : ℕ → ℕ → List Chunk
  | 0, _ => []
  | fuel + 1, i =>
    if i < lines.length then
      if pyStrip (pyJoinNl ((lines.take (min (i + chunkSize)
          lines.length)).drop i)) = [] then
        linesLoop filePath lang lines chunkSize fuel (i + chunkSize)
      else
        mkLinesChunk filePath lang lines chunkSize i ::
          linesLoop filePath lang lines chunkSize fuel (i + chunkSize)
    else []

/-- Embedding of `SemanticChunkingService._chunk_by_lines`
(`semantic_chunking.py` lines 478-511). -/
def chunkByLines (filePath : String) (content : List Char) (lang : String)
    (chunkSize : ℕ) : List Chunk :=
  linesLoop filePath lang (pySplitNl content) chunkSize
    ((pySplitNl content).length + 1) 0

/-- Embedding of `SemanticChunkingService._fallback_chunking`
(`semantic_chunking.py` lines 513-516). -/
def fallbackChunking (filePath : String) (content : List Char) : List Chunk :=
  chunkByLines filePath content "text" 30

/-- The sentence-punctuation class `[.!?]`. -/
def isSentPunct (c : Char) : Bool :=
  c = '.' || c = '!' || c = '?'

/-- Leftmost match of `[.!?]+[\s\n]+` in `re.split(r"[.!?]+[\s\n]+", ...)`
(`semantic_chunking.py` line 431): on success, the piece before the
separator and the rest after it.  A match starts at the first position
holding a sentence-punctuation character whose maximal punctuation run is
followed by at least one whitespace character (shorter runs never help:
the next character after them is punctuation, not whitespace). -/
def sentSep : List Char → Option (List Char × List Char)
  | [] => none
  | c :: rest =>
    if isSentPunct c ∧
        ((c :: rest).dropWhile isSentPunct).takeWhile isPyWs ≠ [] then
      some ([], (((c :: rest).dropWhile isSentPunct).dropWhile isPyWs))
    else (sentSep rest).map (fun q => (c :: q.1, q.2))

/-- Iterated splitting on the sentence separator; every separator consumes
at least two characters, so `cs.length + 1` rounds of fuel suffice. -/
def sentSplit : ℕ → List Char → List (List Char)
  | 0, cs => [cs]
  | fuel + 1, cs =>
    match sentSep cs with
    | none => [cs]
    | some (p, r) => p :: sentSplit fuel r

/-- `sentences = re.split(r"[.!?]+[\s\n]+", content)`. -/
def sentences (cs : List Char) : List (List Char) :=
  sentSplit (cs.length + 1) cs

/-- Python `". ".join(pieces)`. -/
def joinDotSpace : List (List Char) → List Char
  | [] => []
  | [x] => x
  | x :: y :: rest => x ++ '.' :: ' ' :: joinDotSpace (y :: rest)

/-- `". ".join(sentences[i : i + 3]).strip()` (`semantic_chunking.py`
lines 438-439). -/
def semGroupContent (sents : List (List Char)) (i : ℕ) : List Char :=
  pyStrip (joinDotSpace ((sents.drop i).take 3))

/-- The chunk `_semantic_chunk_text` appends for group index `i` when
`content.find` locates the group text at `sp`
(`semantic_chunking.py` lines 449-470). -/
def mkSemChunk (filePath lang : String) (content : List Char)
    (i sp : ℕ) (cc : List Char) (groupLen : ℕ) : Chunk :=
  { id := mkChunkId filePath "semantic" (toString (i / 3))
      (countNl (content.take sp)) (countNl (content.take (sp + cc.length)))
    content := cc
    file_path := filePath
    start_line := countNl (content.take sp) + 1
    end_line := countNl (content.take (sp + cc.length)) + 1
    chunk_type := "semantic"
    language := lang
    metadata := [("sentence_count", MetaVal.nat groupLen),
      ("chunk_index", MetaVal.nat (i / 3))] }

/-- The `range(0, len(sentences), 2)` loop of `_semantic_chunk_text`
(`semantic_chunking.py` lines 437-470); `sents.length + 1` rounds of fuel
cover every iteration. -/
def semLoop (filePath lang : String) (content : List Char)
    (sents : List (List Char)) : ℕ → ℕ → List Chunk
  | 0, _ => []
  | fuel + 1, i =>
    if i < sents.length then
      if semGroupContent sents i = [] then
        semLoop filePath lang content sents fuel (i + 2)
      else
        match pyFind content (semGroupContent sents i) with
        | none => semLoop filePath lang content sents fuel (i + 2)
        | some sp =>
          mkSemChunk filePath lang content i sp (semGroupContent sents i)
            ((sents.drop i).take 3).length ::
            semLoop filePath lang content sents fuel (i + 2)
    else []

/-- Embedding of `SemanticChunkingService._semantic_chunk_text`
(`semantic_chunking.py` lines 418-476). -/
def semanticChunkText (o : ChunkOracles) (filePath : String)
    (content : List Char) (lang : String) : List Chunk :=
  if o.hasSentenceModel then
    semLoop filePath lang content (sentences content)
      ((sentences content).length + 1) 0
  else chunkByLines filePath content lang 50

/-- Embedding of `SemanticChunkingService._chunk_python_code`
(`semantic_chunking.py` lines 134-162).  An `ast.parse` exception other
than `SyntaxError` escapes as `Except.error`. -/
def chunkPythonCode (o : ChunkOracles) (filePath : String)
    (content : List Char) : Except Unit (List Chunk) :=
  match o.pyParse content with
  | PyParseResult.otherError => Except.error ()
  | PyParseResult.syntaxError =>
    Except.ok (semanticChunkText o filePath content "python")
  | PyParseResult.ok nodes =>
    if nodes.isEmpty then
      Except.ok (semanticChunkText o filePath content "python")
    else
      Except.ok (nodes.map (fun n =>
        extractPythonNode n (pySplitNl content) filePath))

/-- The brace scan of `_chunk_javascript_code` (`semantic_chunking.py`
lines 246-254): starting from `match.start()`, the first `\x7d` that brings
the running count to zero fixes the end line; `i` is the absolute index of
the head of the list argument. -/
def braceScan (content : List Char) : ℕ → List Char → ℤ → Option ℕ
  | _, [], _ => none
  | i, c :: rest, count =>
    if c = '\x7b' then braceScan content (i + 1) rest (count + 1)
    else if c = '\x7d' then
      if count - 1 = 0 then some (countNl (content.take i))
      else braceScan content (i + 1) rest (count - 1)
    else braceScan content (i + 1) rest count

/-- `end_line` of a JavaScript match before the bound check: the brace
scan's line if it fires, else `content[:match.end()].count("\n") + 5`
(`semantic_chunking.py` lines 242-254). -/
def jsEndLine (content : List Char) (ms me : ℕ) : ℕ :=
  match braceScan content ms (content.drop ms) 0 with
  | some e => e
  | none => countNl (content.take me) + 5

/-- Python `\w` for ASCII text. -/
def isWordChar (c : Char) : Bool :=
  c.isAlphanum || c = '_'

/-- `re.search(r"(?:function|class|interface|type)\s+(\w+)", g)` tried at
the head of `cs`: the captured name.  The keyword alternatives are tried
in pattern order; `\s+` and `\w+` are maximal runs (their classes are
disjoint, so greedy matching never backtracks). -/
def jsNameAt (cs : List Char) : Option String :=
  ["function", "class", "interface", "type"].findSome? (fun kw =>
    if kw.data.isPrefixOf cs then
      if (cs.drop kw.length).takeWhile isPyWs ≠ [] ∧
          (((cs.drop kw.length).dropWhile isPyWs).takeWhile isWordChar) ≠ []
      then
        some (String.mk
          (((cs.drop kw.length).dropWhile isPyWs).takeWhile isWordChar))
      else none
    else none)

/-- The left-to-right scan of `re.search` over the match text. -/
def jsSearchName : List Char → Option String
  | [] => none
  | c :: rest =>
    match jsNameAt (c :: rest) with
    | some n => some n
    | none => jsSearchName rest

/-- `name_match.group(1) if name_match else "anonymous"`
(`semantic_chunking.py` lines 263-266). -/
def jsName (content : List Char) (ms me : ℕ) : String :=
  (jsSearchName (pySlice content ms me)).getD "anonymous"

/-- `end_line` of a JavaScript match after the bound check
(`semantic_chunking.py` line 257). -/
def jsEnd (content : List Char) (lines : List (List Char)) (ms me : ℕ) : ℕ :=
  min (jsEndLine content ms me) (lines.length - 1)

/-- The chunk `_chunk_javascript_code` appends for one tagged match
`(chunk_type, (start, end))` (`semantic_chunking.py` lines 241-285). -/
def jsChunkOfMatch (filePath : String) (content : List Char)
    (lines : List (List Char)) (tm : String × ℕ × ℕ) : Chunk :=
  { id := mkChunkId filePath tm.1 (jsName content tm.2.1 tm.2.2)
      (countNl (content.take tm.2.1)) (jsEnd content lines tm.2.1 tm.2.2)
    content := pyJoinNl ((lines.take (jsEnd content lines tm.2.1 tm.2.2 + 1)).drop
      (countNl (content.take tm.2.1)))
    file_path := filePath
    start_line := countNl (content.take tm.2.1) + 1
    end_line := jsEnd content lines tm.2.1 tm.2.2 + 1
    chunk_type := tm.1
    language := "javascript"
    metadata := [("name", MetaVal.str (jsName content tm.2.1 tm.2.2)),
      ("signature", MetaVal.str (String.mk (pySlice content tm.2.1 tm.2.2))),
      ("is_async", MetaVal.bool
        (pyContainsSub (pySlice content tm.2.1 tm.2.2) "async".data))] }

/-- The tagged match list: function matches then class matches, sorted by
`match.start()` (`semantic_chunking.py` lines 232-238; both Python's
`list.sort` and `List.insertionSort` are stable). -/
def jsAllMatches (o : ChunkOracles) (content : List Char) :
    List (String × ℕ × ℕ) :=
  (((o.jsFunMatches content).map (fun m => ("function", m))) ++
    ((o.jsClassMatches content).map (fun m => ("class", m)))).insertionSort
    (fun a b => a.2.1 ≤ b.2.1)

/-- Embedding of `SemanticChunkingService._chunk_javascript_code`
(`semantic_chunking.py` lines 218-291).  The loop appends exactly one
chunk per tagged match, so `chunks` is empty iff the match list is. -/
def chunkJavascriptCode (o : ChunkOracles) (filePath : String)
    (content : List Char) : List Chunk :=
  if (jsAllMatches o content).isEmpty then
    semanticChunkText o filePath content "javascript"
  else
    (jsAllMatches o content).map
      (jsChunkOfMatch filePath content (pySplitNl content))

/-- Whether `re.compile(rf"^\x7bre.escape(key)\x7d\s*:", re.MULTILINE)`
matches at position `p` (the `^` anchor is checked by the caller): the
literal key, then a maximal whitespace run, then `:`
(`semantic_chunking.py` line 380). -/
def keyMatchesAt (content : List Char) (key : List Char) (p : ℕ) : Bool :=
  key.isPrefixOf (content.drop p) &&
    decide ((((content.drop p).drop key.length).dropWhile isPyWs).head? =
      some ':')

/-- The left-to-right scan of `key_pattern.search(content)`;
`content.length + 1` rounds of fuel cover every position. -/
def keySearchFrom (content : List Char) (key : List Char) : ℕ → ℕ → Option ℕ
  | _, 0 => none
  | p, fuel + 1 =>
    if p < content.length then
      if anchoredAt content p ∧ keyMatchesAt content key p then some p
      else keySearchFrom content key (p + 1) fuel
    else none

/-- The chunks `_chunk_config_file` appends for one dict item
(`semantic_chunking.py` lines 378-406): one chunk when the key pattern
matches somewhere, none otherwise. -/
def configChunkOfKey (filePath : String) (content : List Char)
    (lines : List (List Char)) (kv : String × String) : List Chunk :=
  match keySearchFrom content kv.1.data 0 (content.length + 1) with
  | none => []
  | some p =>
    [{ id := mkChunkId filePath "section" kv.1 (countNl (content.take p))
         (min (countNl (content.take p) + 10) (lines.length - 1))
       content := pyJoinNl ((lines.take
           (min (countNl (content.take p) + 10) (lines.length - 1) + 1)).drop
           (countNl (content.take p)))
       file_path := filePath
       start_line := countNl (content.take p) + 1
       end_line := min (countNl (content.take p) + 10) (lines.length - 1) + 1
       chunk_type := "section"
       language := "yaml"
       metadata := [("key", MetaVal.str kv.1),
         ("value_type", MetaVal.str kv.2)] }]

/-- Embedding of `SemanticChunkingService._chunk_config_file`
(`semantic_chunking.py` lines 365-412): a `yaml.safe_load` exception falls
back to line chunking, a non-dict value yields no chunks, and a dict
yields the per-key chunks in item order. -/
def chunkConfigFile (o : ChunkOracles) (filePath : String)
    (content : List Char) : List Chunk :=
  match o.yamlParse content with
  | Except.error _ => chunkByLines filePath content "yaml" 50
  | Except.ok none => []
  | Except.ok (some items) =>
    (items.map (configChunkOfKey filePath content (pySplitNl content))).flatten

/-- The `language_map` literal of `_detect_language`
(`semantic_chunking.py` lines 86-131). -/
def languageMap : List (String × String) :=
  [(".py", "python"), (".js", "javascript"), (".ts", "typescript"),
   (".jsx", "javascript"), (".tsx", "typescript"), (".java", "java"),
   (".cpp", "cpp"), (".c", "c"), (".h", "c"), (".hpp", "cpp"),
   (".cs", "csharp"), (".go", "go"), (".rs", "rust"), (".swift", "swift"),
   (".kt", "kotlin"), (".scala", "scala"), (".rb", "ruby"), (".php", "php"),
   (".md", "markdown"), (".txt", "text"), (".rst", "text"), (".adoc", "text"),
   (".yml", "yaml"), (".yaml", "yaml"), (".json", "json"), (".toml", "toml"),
   (".cfg", "text"), (".ini", "text"), (".conf", "text"), (".sh", "bash"),
   (".bash", "bash"), (".zsh", "bash"), (".fish", "bash"),
   (".ps1", "powershell"), (".bat", "batch"), (".cmd", "batch"),
   (".sql", "sql"), (".html", "html"), (".css", "css"), (".scss", "css"),
   (".sass", "css"), (".less", "css"), (".xml", "xml"),
   (".dockerfile", "dockerfile")]

/-- Embedding of `SemanticChunkingService._detect_language`
(`semantic_chunking.py` lines 84-132). -/
def detectLanguage (fileExt : String) : String :=
  ((languageMap.find? (fun q => q.1 = fileExt)).map (fun q => q.2)).getD "text"

/-- `language = self._detect_language(Path(file_path).suffix.lower())`
(`semantic_chunking.py` lines 60-61). -/
def docLanguage (o : ChunkOracles) (filePath : String) : String :=
  detectLanguage (String.mk (pyLower (o.pathSuffix filePath).data))

/-- The strategy dispatch inside `chunk_document`'s `try` block
(`semantic_chunking.py` lines 59-78); `Except.error` is the propagated
non-`SyntaxError` exception of `ast.parse`. -/
def chunkDispatch (o : ChunkOracles) (filePath : String) (content : List Char) :
    Except Unit (List Chunk) :=
  if docLanguage o filePath = "python" then chunkPythonCode o filePath content
  else if docLanguage o filePath = "javascript" ∨
      docLanguage o filePath = "typescript" then
    Except.ok (chunkJavascriptCode o filePath content)
  else if docLanguage o filePath = "markdown" ∨
      docLanguage o filePath = "text" then
    Except.ok (chunkMarkdown filePath content)
  else if docLanguage o filePath = "yaml" ∨ docLanguage o filePath = "yml" ∨
      docLanguage o filePath = "json" then
    Except.ok (chunkConfigFile o filePath content)
  else Except.ok (semanticChunkText o filePath content "text")

/-- Embedding of `SemanticChunkingService.chunk_document`
(`semantic_chunking.py` lines 57-82): the dispatch, with the outer
exception handler falling back to `_fallback_chunking`. -/
def chunkDocument (o : ChunkOracles) (filePath : String)
    (content : List Char) : List Chunk :=
  match chunkDispatch o filePath content with
  | Except.ok cs => cs
  | Except.error _ => fallbackChunking filePath content

/-- C1's id shape: the chunk id is built by `mkChunkId` from the file
path, a chunk-kind tag, a symbol name or ordinal index, and a line
range. -/
def IdShaped (filePath : String) (ch : Chunk) : Prop :=
  ∃ kind key s e, ch.id = mkChunkId filePath kind key s e

/-- Concrete oracle assignment used by the C1 witness: no sentence model,
no JavaScript matches, failing `yaml` and `ast`, and a `pathlib` oracle
mapping `b.md` to `.md`. -/
def sampleOracles : ChunkOracles :=
  { pathSuffix := fun q => if q = "b.md" then ".md" else ""
    pyParse := fun _ => PyParseResult.syntaxError
    hasSentenceModel := false
    jsFunMatches := fun _ => []
    jsClassMatches := fun _ => []
    yamlParse := fun _ => Except.error () }

/-! # Theorems -/

/-! ## String primitive facts -/

theorem pySplitOn_ne_nil (sep : Char) (cs : List Char) : pySplitOn sep cs ≠ [] := by
  induction cs with
  | nil => simp [pySplitOn]
  | cons c cs ih =>
    unfold pySplitOn
    split
    · simp
    · cases h : pySplitOn sep cs with
      | nil => exact absurd h ih
      | cons a t => simp [List.modifyHead]

theorem pySplitNl_ne_nil (cs : List Char) : pySplitNl cs ≠ [] :=
  pySplitOn_ne_nil '\n' cs

theorem pyJoinNl_cons_cons (a b : List Char) (t : List (List Char)) :
    pyJoinNl (a :: b :: t) = a ++ '\n' :: pyJoinNl (b :: t) := by
  simp [pyJoinNl, List.intercalate, List.intersperse]

theorem pyJoinNl_consHead (c : Char) (a : List Char) (t : List (List Char)) :
    pyJoinNl ((c :: a) :: t) = c :: pyJoinNl (a :: t) := by
  cases t with
  | nil => simp [pyJoinNl, List.intercalate]
  | cons b t' => simp [pyJoinNl_cons_cons]

/-- Splitting on newlines and joining with newlines is the identity, the
key round-trip fact behind `_split_large_chunk`. -/
theorem pyJoinNl_pySplitNl (cs : List Char) : pyJoinNl (pySplitNl cs) = cs := by
  induction cs with
  | nil => rfl
  | cons c cs ih =>
    by_cases h : c = '\n'
    · subst h
      cases hs : pySplitNl cs with
      | nil => exact absurd hs (pySplitNl_ne_nil cs)
      | cons a t =>
        rw [hs] at ih
        rw [pySplitNl, pySplitOn, if_pos rfl]
        rw [show pySplitOn '\n' cs = pySplitNl cs from rfl, hs,
          pyJoinNl_cons_cons, ih]
        rfl
    · cases hs : pySplitNl cs with
      | nil => exact absurd hs (pySplitNl_ne_nil cs)
      | cons a t =>
        rw [hs] at ih
        rw [pySplitNl, pySplitOn, if_neg h]
        rw [show pySplitOn '\n' cs = pySplitNl cs from rfl, hs]
        simp only [List.modifyHead]
        rw [pyJoinNl_consHead, ih]

theorem pyStrip_length_le (cs : List Char) : (pyStrip cs).length ≤ cs.length := by
  unfold pyStrip
  have h1 : (cs.dropWhile isPyWs).length ≤ cs.length :=
    (List.dropWhile_sublist isPyWs).length_le
  have h2 : ((cs.dropWhile isPyWs).reverse.dropWhile isPyWs).length ≤
      (cs.dropWhile isPyWs).reverse.length :=
    (List.dropWhile_sublist isPyWs).length_le
  simp only [List.length_reverse] at *
  omega

/-! ## C3 -/

/-- C3 — Change detection: `_is_file_changed` returns `true` exactly when
no record exists for the file, or the recorded collection differs, or the
current mtime is strictly newer than the recorded one, or the current
content hash differs from the recorded one; with a matching record,
equal-or-older mtime and equal hash it returns `false`. -/
theorem isFileChanged_iff (fileIndexes : List (String × FileIndex)) (fileKey : String)
    (collectionName : String) (currentMtime : ℚ) (currentHash : String) :
    isFileChanged fileIndexes fileKey collectionName currentMtime currentHash = true ↔
      (lookupIndex fileIndexes fileKey = none ∨
        ∃ fi, lookupIndex fileIndexes fileKey = some fi ∧
          (fi.collection_name ≠ collectionName ∨
            fi.last_modified < currentMtime ∨
            currentHash ≠ fi.file_hash)) := by
  unfold isFileChanged
  cases h : lookupIndex fileIndexes fileKey with
  | none => simp
  | some fi =>
    simp only [h, Option.some.injEq, reduceCtorEq, false_or]
    constructor
    · intro hb
      refine ⟨fi, rfl, ?_⟩
      by_contra hc
      push_neg at hc
      obtain ⟨h1, h2, h3⟩ := hc
      simp [h1, h3, not_lt.mpr h2] at hb
    · rintro ⟨fi', hfi, hcase⟩
      cases hfi
      rcases hcase with h1 | h2 | h3
      · simp [h1]
      · by_cases hn : fi.collection_name = collectionName <;> simp [hn, h2]
      · by_cases hn : fi.collection_name = collectionName <;>
          by_cases hm : fi.last_modified < currentMtime <;> simp [hn, hm, h3]

/-! ## C6 — Confidence formula -/

/-- C6 counterexample: at `score = 1.0`, `result_count = 200` the source
computes `1 * (0.7 + 0.3 * (1 - 200/100)) = 0.4`, while the claimed
formula clamps `result_count/100` at `1` and yields `0.7`. -/
theorem calculateConfidence_counterexample :
    calculateConfidence 1 200 = 2/5 ∧ claimedConfidenceC6 1 200 = 7/10 ∧
      calculateConfidence 1 200 ≠ claimedConfidenceC6 1 200 := by
  refine ⟨?_, ?_, ?_⟩ <;> norm_num [calculateConfidence, claimedConfidenceC6]

/-- C6 (amended) — Confidence formula: `_calculate_confidence(score, n)`
equals `clamp(clamp(score, 0, 1) * (0.7 + 0.3 * (1 − n/100)), 0.1, 1.0)`
(the source does not clamp `n/100` at 1), and for a fixed score a larger
result count never yields a higher confidence. -/
theorem calculateConfidence_amended (score : ℚ) (n m : ℕ) (h : n ≤ m) :
    calculateConfidence score n =
      max (1/10) (min 1
        ((max 0 (min 1 score)) * (7/10 + 3/10 * (1 - (n : ℚ) / 100)))) ∧
    calculateConfidence score m ≤ calculateConfidence score n := by
  constructor
  · rfl
  · unfold calculateConfidence
    have hn : (0 : ℚ) ≤ max 0 (min 1 score) := le_max_left 0 _
    have hq : (n : ℚ) ≤ (m : ℚ) := by exact_mod_cast h
    have hfac : (7/10 + 3/10 * (1 - (m : ℚ) / 100)) ≤
        (7/10 + 3/10 * (1 - (n : ℚ) / 100)) := by linarith
    have hmul := mul_le_mul_of_nonneg_left hfac hn
    exact max_le_max (le_refl _) (min_le_min (le_refl _) hmul)

/-- Witness for `calculateConfidence_amended` at `score = 1`, `n = 1`,
`m = 2`. -/
theorem calculateConfidence_amended_witness :
    calculateConfidence 1 1 =
      max (1/10) (min 1
        ((max 0 (min 1 (1 : ℚ))) * (7/10 + 3/10 * (1 - (1 : ℚ) / 100)))) ∧
    calculateConfidence 1 2 ≤ calculateConfidence 1 1 :=
  calculateConfidence_amended 1 1 2 (by norm_num)

/-! ## C7 — Confidence bounds -/

theorem calculateConfidence_bounds (s : ℚ) (n : ℕ) :
    1/10 ≤ calculateConfidence s n ∧ calculateConfidence s n ≤ 1 := by
  unfold calculateConfidence
  exact ⟨le_max_left _ _, max_le (by norm_num) (min_le_left _ _)⟩

theorem mem_sortByRerankDesc {r : ReRankedResult} {l : List ReRankedResult}
    (h : r ∈ sortByRerankDesc l) : r ∈ l :=
  (List.perm_insertionSort _ l).mem_iff.mp h

theorem basicRerank_conf (results : List SearchResult) (topK : ℕ) :
    ∀ r ∈ basicRerank results topK, 1/10 ≤ r.confidence ∧ r.confidence ≤ 1 := by
  intro r hr
  unfold basicRerank at hr
  obtain ⟨x, _, rfl⟩ :=
    List.mem_map.mp (mem_sortByRerankDesc (List.mem_of_mem_take hr))
  exact calculateConfidence_bounds _ _

theorem rerankWithCrossEncoder_conf (svc : RerankService) (query : String)
    (results : List SearchResult) (topK : ℕ) :
    ∀ r ∈ rerankWithCrossEncoder svc query results topK,
      1/10 ≤ r.confidence ∧ r.confidence ≤ 1 := by
  intro r hr
  unfold rerankWithCrossEncoder at hr
  split at hr
  · exact basicRerank_conf results topK r hr
  · obtain ⟨p, _, rfl⟩ :=
      List.mem_map.mp (mem_sortByRerankDesc (List.mem_of_mem_take hr))
    exact calculateConfidence_bounds _ _

theorem rerankWithSemanticSimilarity_conf (svc : RerankService) (query : String)
    (results : List SearchResult) (topK : ℕ) :
    ∀ r ∈ rerankWithSemanticSimilarity svc query results topK,
      1/10 ≤ r.confidence ∧ r.confidence ≤ 1 := by
  intro r hr
  unfold rerankWithSemanticSimilarity at hr
  split at hr
  · exact basicRerank_conf results topK r hr
  · obtain ⟨p, _, rfl⟩ :=
      List.mem_map.mp (mem_sortByRerankDesc (List.mem_of_mem_take hr))
    exact calculateConfidence_bounds _ _

theorem rerankWithFeatures_conf (query : String)
    (results : List SearchResult) (topK : ℕ) :
    ∀ r ∈ rerankWithFeatures query results topK,
      1/10 ≤ r.confidence ∧ r.confidence ≤ 1 := by
  intro r hr
  unfold rerankWithFeatures at hr
  split at hr
  · exact basicRerank_conf results topK r hr
  · obtain ⟨p, _, rfl⟩ :=
      List.mem_map.mp (mem_sortByRerankDesc (List.mem_of_mem_take hr))
    exact calculateConfidence_bounds _ _

theorem mapM_option_mem {α β : Type} (f : α → Option β) (l : List α)
    (ys : List β) (h : l.mapM f = some ys) :
    ∀ y ∈ ys, ∃ x ∈ l, f x = some y := by
  induction l generalizing ys with
  | nil =>
    simp only [List.mapM_nil, Option.pure_def, Option.some.injEq] at h
    subst h
    simp
  | cons a t ih =>
    simp only [List.mapM_cons, Option.pure_def, Option.bind_eq_bind,
      Option.bind_eq_some, Option.some.injEq] at h
    obtain ⟨b, hb, bs, hbs, rfl⟩ := h
    intro y hy
    rcases List.mem_cons.mp hy with rfl | hmem
    · exact ⟨a, List.mem_cons_self a t, hb⟩
    · obtain ⟨x, hx, hfx⟩ := ih bs hbs y hmem
      exact ⟨x, List.mem_cons_of_mem a hx, hfx⟩

theorem hybridCombineAt_conf (results : List SearchResult)
    (crossScores semScores featureScores : List ℚ)
    (featureResults : List ReRankedResult) (i : ℕ) (r : ReRankedResult)
    (h : hybridCombineAt results crossScores semScores featureScores
        featureResults i = some r) :
    1/10 ≤ r.confidence ∧ r.confidence ≤ 1 := by
  unfold hybridCombineAt at h
  split at h
  · obtain ⟨af, _, rfl⟩ := Option.map_eq_some'.mp h
    exact calculateConfidence_bounds _ _
  · simp at h

theorem hybridRerank_conf (svc : RerankService) (query : String)
    (results : List SearchResult) (topK : ℕ) :
    ∀ r ∈ hybridRerank svc query results topK,
      1/10 ≤ r.confidence ∧ r.confidence ≤ 1 := by
  intro r hr
  unfold hybridRerank at hr
  split at hr
  · exact basicRerank_conf results topK r hr
  · rename_i reRanked hmap
    obtain ⟨i, _, hi⟩ := mapM_option_mem _ _ _ hmap r
      (mem_sortByRerankDesc (List.mem_of_mem_take hr))
    exact hybridCombineAt_conf _ _ _ _ _ _ _ hi

/-- C7 — Confidence bounds: every result produced by `rerank_results`
under any method (`cross_encoder`, `semantic_similarity`, `feature_based`,
`hybrid`, or the basic fallback) has `0.1 ≤ confidence ≤ 1.0`. -/
theorem rerankResults_confidence_bounds (svc : RerankService) (query : String)
    (results : List SearchResult) (topK : ℕ) (method : String) :
    ∀ r ∈ rerankResults svc query results topK method,
      1/10 ≤ r.confidence ∧ r.confidence ≤ 1 := by
  intro r hr
  unfold rerankResults at hr
  split at hr
  · simp at hr
  · split at hr
    · exact rerankWithCrossEncoder_conf _ _ _ _ r hr
    · split at hr
      · exact rerankWithSemanticSimilarity_conf _ _ _ _ r hr
      · split at hr
        · exact rerankWithFeatures_conf _ _ _ r hr
        · split at hr
          · exact hybridRerank_conf _ _ _ _ r hr
          · exact basicRerank_conf _ _ r hr

/-- Witness for `rerankResults_confidence_bounds` on a concrete
re-ranking run. -/
theorem rerankResults_confidence_bounds_witness :
    1/10 ≤ rerankW.confidence ∧ rerankW.confidence ≤ 1 :=
  rerankResults_confidence_bounds sampleService "q" [sampleResult "1" "x"] 5
    "other" rerankW
    (by
      rw [show rerankResults sampleService "q" [sampleResult "1" "x"] 5 "other" =
        [rerankW] from rfl]
      exact List.mem_singleton_self _)

/-! ## C5 — Diversification -/

theorem calcContentSimilarity_comm (a b : String) :
    calcContentSimilarity a b = calcContentSimilarity b a := by
  simp only [calcContentSimilarity]
  rw [Finset.inter_comm, Finset.union_comm]
  by_cases h1 : pySplitWs (pyLower a.data) = [] <;>
    by_cases h2 : pySplitWs (pyLower b.data) = [] <;>
    simp [h1, h2]

theorem diversifyLoop_cons (θ : ℚ) (maxR : ℕ) (sel : List ReRankedResult)
    (r : ReRankedResult) (rs : List ReRankedResult) :
    diversifyLoop θ maxR sel (r :: rs) =
      if maxR ≤ sel.length then sel
      else if sel.any (fun s =>
          θ < calcContentSimilarity r.original_result.content
            s.original_result.content) then
        diversifyLoop θ maxR sel rs
      else diversifyLoop θ maxR (sel ++ [r]) rs := rfl

theorem diversifyLoop_append (θ : ℚ) (maxR : ℕ) (sel rest : List ReRankedResult) :
    ∃ suf, diversifyLoop θ maxR sel rest = sel ++ suf := by
  induction rest generalizing sel with
  | nil => exact ⟨[], (List.append_nil sel).symm⟩
  | cons r rs ih =>
    unfold diversifyLoop
    split
    · exact ⟨[], (List.append_nil sel).symm⟩
    · split
      · exact ih sel
      · obtain ⟨suf, hsuf⟩ := ih (sel ++ [r])
        exact ⟨r :: suf, by rw [hsuf, List.append_assoc]; rfl⟩

theorem diversifyLoop_length (θ : ℚ) (maxR : ℕ) (sel rest : List ReRankedResult)
    (h : sel.length ≤ max 1 maxR) :
    (diversifyLoop θ maxR sel rest).length ≤ max 1 maxR := by
  induction rest generalizing sel with
  | nil => exact h
  | cons r rs ih =>
    unfold diversifyLoop
    split
    · exact h
    · split
      · exact ih sel h
      · rename_i hlen _
        refine ih (sel ++ [r]) ?_
        have : sel.length + 1 ≤ maxR := by omega
        simp only [List.length_append, List.length_cons, List.length_nil]
        omega

theorem diversifyLoop_pairwise (θ : ℚ) (maxR : ℕ)
    (sel rest : List ReRankedResult)
    (h : sel.Pairwise (fun a b =>
      calcContentSimilarity a.original_result.content
        b.original_result.content ≤ θ)) :
    (diversifyLoop θ maxR sel rest).Pairwise (fun a b =>
      calcContentSimilarity a.original_result.content
        b.original_result.content ≤ θ) := by
  induction rest generalizing sel with
  | nil => exact h
  | cons r rs ih =>
    unfold diversifyLoop
    split
    · exact h
    · split
      · exact ih sel h
      · rename_i hnotsim
        refine ih (sel ++ [r]) ?_
        rw [List.pairwise_append]
        refine ⟨h, List.pairwise_singleton _ _, ?_⟩
        intro a ha b hb
        rw [List.mem_singleton] at hb
        have hall : ∀ s ∈ sel, ¬ (θ < calcContentSimilarity
            r.original_result.content s.original_result.content) := by
          simpa [List.any_eq_true] using hnotsim
        rw [hb, calcContentSimilarity_comm]
        exact not_lt.mp (hall a ha)

/-- C5 counterexample: with two results of identical content and
`diversity_threshold = 1`, the pair (similarity exactly `1`) survives the
filter because the source compares with `>` rather than `≥`, so the claimed
strict inequality `similarity < threshold` fails on the output; and with
`max_results = 0` the output keeps the top result, so its length exceeds
`max_results`. -/
theorem diversifyResults_counterexample :
    calcContentSimilarity "x" "x" = 1 ∧
    diversifyResults [sampleReRanked "1" "x", sampleReRanked "2" "x"] 1 10 =
      [sampleReRanked "1" "x", sampleReRanked "2" "x"] ∧
    ¬ calcContentSimilarity "x" "x" < 1 ∧
    (diversifyResults [sampleReRanked "1" "x", sampleReRanked "2" "x"] 1 0).length
      = 1 ∧
    ¬ ((diversifyResults [sampleReRanked "1" "x", sampleReRanked "2" "x"] 1 0).length
      ≤ 0) := by
  have hsim : calcContentSimilarity "x" "x" = 1 := by
    rw [show calcContentSimilarity "x" "x" =
      (((1 : ℕ) : ℚ) / ((1 : ℕ) : ℚ)) from rfl]
    norm_num
  have hany : ¬ ([sampleReRanked "1" "x"].any (fun s =>
      (1 : ℚ) < calcContentSimilarity
        (sampleReRanked "2" "x").original_result.content
        s.original_result.content) = true) := by
    simp [sampleReRanked, sampleResult, hsim]
  have h10 : diversifyResults [sampleReRanked "1" "x", sampleReRanked "2" "x"] 1 10 =
      [sampleReRanked "1" "x", sampleReRanked "2" "x"] := by
    rw [show diversifyResults [sampleReRanked "1" "x", sampleReRanked "2" "x"] 1 10 =
      diversifyLoop 1 10 [sampleReRanked "1" "x"] [sampleReRanked "2" "x"] from rfl]
    rw [diversifyLoop_cons, if_neg (by norm_num), if_neg hany]
    rfl
  have h0 : diversifyResults [sampleReRanked "1" "x", sampleReRanked "2" "x"] 1 0 =
      [sampleReRanked "1" "x"] := by
    rw [show diversifyResults [sampleReRanked "1" "x", sampleReRanked "2" "x"] 1 0 =
      diversifyLoop 1 0 [sampleReRanked "1" "x"] [sampleReRanked "2" "x"] from rfl]
    rw [diversifyLoop_cons, if_pos (by norm_num)]
  refine ⟨hsim, h10, by rw [hsim]; exact lt_irrefl 1, by rw [h0]; rfl,
    by rw [h0]; norm_num⟩

set_option maxHeartbeats 1000000 in
/-- C5 (amended) — Diversification invariant: for a non-empty input,
`diversify_results` keeps the first input result as its first output, its
output length is at most `max(1, max_results)` (the top result survives
even when `max_results = 0`), and every pair of distinct selected results
has pairwise content similarity at most (not strictly below) the
diversity threshold. -/
theorem diversifyResults_amended (results : List ReRankedResult) (θ : ℚ)
    (maxResults : ℕ) (h : results ≠ []) :
    (diversifyResults results θ maxResults).head? = results.head? ∧
    (diversifyResults results θ maxResults).length ≤ max 1 maxResults ∧
    (diversifyResults results θ maxResults).Pairwise (fun a b =>
      calcContentSimilarity a.original_result.content
        b.original_result.content ≤ θ) := by
  unfold diversifyResults
  split
  · rename_i hlen
    match results, h with
    | [r], _ =>
      refine ⟨rfl, by simp, ?_⟩
      exact List.pairwise_singleton _ _
    | [], h => exact absurd rfl h
    | r1 :: r2 :: rs, _ => simp at hlen
  · match results, h with
    | r0 :: rest, _ =>
      obtain ⟨suf, hsuf⟩ := diversifyLoop_append θ maxResults [r0] rest
      refine ⟨?_, ?_, ?_⟩
      · show (diversifyLoop θ maxResults [r0] rest).head? = (r0 :: rest).head?
        rw [hsuf]
        rfl
      · show (diversifyLoop θ maxResults [r0] rest).length ≤ max 1 maxResults
        exact diversifyLoop_length θ maxResults [r0] rest (by simp)
      · show (diversifyLoop θ maxResults [r0] rest).Pairwise (fun a b =>
          calcContentSimilarity a.original_result.content
            b.original_result.content ≤ θ)
        exact diversifyLoop_pairwise θ maxResults [r0] rest
          (List.pairwise_singleton _ _)

/-- Witness for `diversifyResults_amended` on a concrete two-result
input. -/
theorem diversifyResults_amended_witness :
    (diversifyResults [sampleReRanked "3" "foo", sampleReRanked "4" "bar"]
        (1/2) 10).head? =
      [sampleReRanked "3" "foo", sampleReRanked "4" "bar"].head? ∧
    (diversifyResults [sampleReRanked "3" "foo", sampleReRanked "4" "bar"]
        (1/2) 10).length ≤ max 1 10 ∧
    (diversifyResults [sampleReRanked "3" "foo", sampleReRanked "4" "bar"]
        (1/2) 10).Pairwise (fun a b =>
      calcContentSimilarity a.original_result.content
        b.original_result.content ≤ 1/2) :=
  diversifyResults_amended [sampleReRanked "3" "foo", sampleReRanked "4" "bar"]
    (1/2) 10 (by simp)

/-! ## C2 — Reciprocal rank fusion -/

theorem getScore_addScore (m : List (String × ℚ)) (k k' : String) (v : ℚ) :
    getScore (addScore m k v) k' = getScore m k' + if k' = k then v else 0 := by
  induction m with
  | nil =>
    simp only [addScore, getScore]
    by_cases h : k' = k
    · subst h
      simp
    · rw [if_neg (fun hh => h hh.symm), if_neg h]
      simp
  | cons p rest ih =>
    obtain ⟨k0, v0⟩ := p
    simp only [addScore]
    by_cases h0 : k0 = k
    · subst h0
      rw [if_pos rfl]
      simp only [getScore]
      by_cases h1 : k0 = k'
      · rw [if_pos h1, if_pos h1, if_pos (h1.symm)]
      · rw [if_neg h1, if_neg h1, if_neg (fun hh => h1 hh.symm)]
        ring
    · rw [if_neg h0]
      simp only [getScore]
      by_cases h1 : k0 = k'
      · rw [if_pos h1, if_pos h1, if_neg (fun hh => h0 (h1.trans hh))]
        ring
      · rw [if_neg h1, if_neg h1]
        exact ih

theorem rrfContrib_nonneg (k : ℕ) (r : ℕ) (ids : List (Option String))
    (did : String) : 0 ≤ rrfContrib k r ids did := by
  induction ids generalizing r with
  | nil => simp [rrfContrib]
  | cons i rest ih =>
    have hden : (0 : ℚ) < (k : ℚ) + r + 1 := by positivity
    have hterm : (0 : ℚ) ≤ (if i = some did then (1 : ℚ) / ((k : ℚ) + r + 1) else 0) := by
      split
      · positivity
      · exact le_refl 0
    have := ih (r + 1)
    simp only [rrfContrib]
    linarith

theorem rrfFoldVector_getScore (k : ℕ) (l : List VDoc) (rank : ℕ)
    (m : List (String × ℚ)) (did : String) :
    getScore (rrfFoldVector k rank l m) did =
      getScore m did + rrfContrib k rank (l.map (fun d => some d.id)) did := by
  induction l generalizing rank m with
  | nil => simp [rrfFoldVector, rrfContrib]
  | cons d rest ih =>
    simp only [rrfFoldVector, List.map_cons, rrfContrib]
    rw [ih, getScore_addScore]
    by_cases h : did = d.id
    · simp only [h, if_pos rfl, Option.some.injEq, if_pos rfl]
      ring
    · have h' : ¬ (some d.id = some did) := by
        intro hh
        exact h (Option.some.inj hh).symm
      rw [if_neg h, if_neg h']
      ring

theorem rrfFoldKeyword_getScore (docs : List BDoc) (k : ℕ)
    (l : List (ℕ × ℚ)) (rank : ℕ) (m : List (String × ℚ)) (did : String) :
    getScore (rrfFoldKeyword docs k rank l m) did =
      getScore m did +
        rrfContrib k rank (l.map (fun e => (docs.get? e.1).map (·.id))) did := by
  induction l generalizing rank m with
  | nil => simp [rrfFoldKeyword, rrfContrib]
  | cons e rest ih =>
    obtain ⟨idx, sc⟩ := e
    simp only [rrfFoldKeyword, List.map_cons, rrfContrib]
    split
    · rename_i d hd
      rw [ih, getScore_addScore]
      simp only [hd, Option.map_some']
      by_cases h : did = d.id
      · simp only [h, if_pos rfl, Option.some.injEq, if_pos rfl]
        ring
      · have h' : ¬ (some d.id = some did) := by
          intro hh
          exact h (Option.some.inj hh).symm
        rw [if_neg h, if_neg h']
        ring
    · rename_i hd
      rw [ih]
      simp only [hd, Option.map_none']
      simp

theorem getScore_fusionScores (docs : List BDoc) (vres : List VDoc)
    (kres : List (ℕ × ℚ)) (k : ℕ) (did : String) :
    getScore (fusionScores docs vres kres k) did =
      rrfScoreSpec docs vres kres k did := by
  unfold fusionScores rrfScoreSpec
  rw [rrfFoldKeyword_getScore, rrfFoldVector_getScore]
  simp [getScore]

theorem pairwise_filterMap_lookup (docs : List BDoc) (l : List (String × ℚ))
    (h : l.Pairwise (fun a b => b.2 ≤ a.2)) :
    (l.filterMap (fun p => (docLookup docs p.1).map (fun d => (d, p.2)))).Pairwise
      (fun a b : BDoc × ℚ => b.2 ≤ a.2) := by
  induction l with
  | nil => simp
  | cons p rest ih =>
    rw [List.pairwise_cons] at h
    obtain ⟨hp, hrest⟩ := h
    rw [List.filterMap_cons]
    cases hl : (docLookup docs p.1).map (fun d => (d, p.2)) with
    | none => exact ih hrest
    | some x =>
      refine List.pairwise_cons.mpr ⟨?_, ih hrest⟩
      intro y hy
      obtain ⟨q, hq, hqy⟩ := List.mem_filterMap.mp hy
      obtain ⟨d1, _, rfl⟩ := Option.map_eq_some'.mp hqy
      obtain ⟨d0, _, rfl⟩ := Option.map_eq_some'.mp hl
      exact hp q hq

theorem reciprocalRankFusion_sorted (docs : List BDoc) (vres : List VDoc)
    (kres : List (ℕ × ℚ)) (k : ℕ) :
    (reciprocalRankFusion docs vres kres k).Pairwise
      (fun a b : BDoc × ℚ => b.2 ≤ a.2) := by
  unfold reciprocalRankFusion
  refine pairwise_filterMap_lookup docs _ ?_
  exact List.sorted_insertionSort _ (fusionScores docs vres kres k)

theorem rrfContrib_head_hit (k : ℕ) (rest : List (Option String))
    (did : String) :
    (1 : ℚ) / ((k : ℚ) + 1) ≤ rrfContrib k 0 (some did :: rest) did := by
  have h0 := rrfContrib_nonneg k 1 rest did
  simp only [rrfContrib, eq_self_iff_true, if_true, Nat.cast_zero, Nat.zero_add,
    add_zero]
  linarith

theorem rrfContrib_le_count (k : ℕ) (ids : List (Option String))
    (did : String) (r : ℕ) :
    rrfContrib k r ids did ≤ (ids.countP (· = some did) : ℚ) / ((k : ℚ) + 1) := by
  induction ids generalizing r with
  | nil => simp [rrfContrib]
  | cons i rest ih =>
    have hk1 : (0 : ℚ) < (k : ℚ) + 1 := by positivity
    have hkr : (0 : ℚ) < (k : ℚ) + r + 1 := by positivity
    have hle : (1 : ℚ) / ((k : ℚ) + r + 1) ≤ 1 / ((k : ℚ) + 1) := by
      apply one_div_le_one_div_of_le hk1
      have : (0 : ℚ) ≤ (r : ℚ) := by positivity
      linarith
    have hih := ih (r + 1)
    by_cases h : i = some did
    · simp only [rrfContrib, if_pos h, List.countP_cons, h]
      simp only [decide_eq_true_eq, if_pos rfl]
      push_cast
      have : ((rest.countP (· = some did) : ℚ) + 1) / ((k : ℚ) + 1) =
          (rest.countP (· = some did) : ℚ) / ((k : ℚ) + 1) + 1 / ((k : ℚ) + 1) := by
        ring
      rw [this]
      linarith
    · simp only [rrfContrib, if_neg h, List.countP_cons]
      have hc : (decide (i = some did)) = false := by
        simpa using h
      rw [hc]
      simpa using le_trans (by linarith [hih] : rrfContrib k (r + 1) rest did ≤
        (rest.countP (· = some did) : ℚ) / ((k : ℚ) + 1)) (le_refl _)

theorem rrfContrib_replicate_ne0 (k : ℕ) (i : Option String) (did : String)
    (h : i ≠ some did) (n : ℕ) (r : ℕ) :
    rrfContrib k r (List.replicate n i) did = 0 := by
  induction n generalizing r with
  | zero => simp [rrfContrib]
  | succ n ih =>
    rw [List.replicate_succ]
    simp only [rrfContrib, if_neg h]
    rw [ih (r + 1)]
    ring

theorem rrfContrib_replicate_ne (k : ℕ) (i : Option String) (did : String)
    (h : i ≠ some did) (n : ℕ) (r : ℕ) (rest : List (Option String)) :
    rrfContrib k r (List.replicate n i ++ rest) did =
      rrfContrib k (r + n) rest did := by
  induction n generalizing r with
  | zero => simp
  | succ n ih =>
    rw [List.replicate_succ, List.cons_append]
    simp only [rrfContrib, if_neg h]
    rw [ih (r + 1)]
    ring_nf

/-- C2 counterexample: the source only considers the first `k = 60`
entries of each ranked list (`vector_results[:k]`), so a document at rank
60 receives fused score 0, while the claim's "each rank position at which
a document appears" formula assigns it `1/(60+60+1) = 1/121`. -/
theorem reciprocalRankFusion_counterexample :
    getScore (fusionScores [] rrfVresCE [] 60) "b" = 0 ∧
    rrfScoreClaimed [] rrfVresCE [] 60 "b" = 1/121 ∧
    getScore (fusionScores [] rrfVresCE [] 60) "b" ≠
      rrfScoreClaimed [] rrfVresCE [] 60 "b" := by
  have hne : (some vdA.id : Option String) ≠ some "b" := by
    simp [vdA]
  have h1 : getScore (fusionScores [] rrfVresCE [] 60) "b" = 0 := by
    rw [getScore_fusionScores]
    unfold rrfScoreSpec rrfVresCE
    rw [show (List.replicate 60 vdA ++ [vdB]).take 60 =
      List.replicate 60 vdA by
        rw [show (60 : ℕ) = (List.replicate 60 vdA).length by simp]
        exact List.take_left _ _]
    rw [List.map_replicate]
    rw [rrfContrib_replicate_ne0 60 _ _ hne 60 0]
    simp [rrfContrib]
  have h2 : rrfScoreClaimed [] rrfVresCE [] 60 "b" = 1/121 := by
    unfold rrfScoreClaimed rrfVresCE
    rw [List.map_append, List.map_replicate]
    simp only [List.map_cons, List.map_nil]
    rw [rrfContrib_replicate_ne 60 _ _ hne 60 0 _]
    simp only [rrfContrib, vdB, Option.some.injEq, if_pos rfl]
    norm_num
  refine ⟨h1, h2, ?_⟩
  rw [h1, h2]
  norm_num

/-- C2 (amended) — Reciprocal rank fusion: a document's fused score is the
sum of `1/(k+rank+1)` (`k = 60`) over every rank below `k` at which it
appears in the vector list or (via a valid corpus index) the keyword list
— entries at rank `k` or beyond are ignored by the source's `[:k]`
truncation; the returned list is sorted by fused score in descending
order; and when document `A` is at rank 0 of both lists while document
`B ≠ A` appears at exactly one rank across the two truncated lists,
`fused_score(A) > fused_score(B)`. -/
theorem reciprocalRankFusion_amended
    (docs : List BDoc) (vres : List VDoc) (kres : List (ℕ × ℚ))
    (A B : String) (dv : VDoc) (e : ℕ × ℚ) (d0 : BDoc)
    (hdv : vres.head? = some dv) (hdvA : dv.id = A)
    (hke : kres.head? = some e) (hde : docs.get? e.1 = some d0)
    (hd0A : d0.id = A)
    (hBocc : rrfOccCount docs vres kres 60 B = 1) :
    (∀ did, getScore (fusionScores docs vres kres 60) did =
      rrfScoreSpec docs vres kres 60 did) ∧
    (reciprocalRankFusion docs vres kres 60).Pairwise
      (fun a b : BDoc × ℚ => b.2 ≤ a.2) ∧
    getScore (fusionScores docs vres kres 60) B <
      getScore (fusionScores docs vres kres 60) A := by
  refine ⟨fun did => getScore_fusionScores docs vres kres 60 did,
    reciprocalRankFusion_sorted docs vres kres 60, ?_⟩
  rw [getScore_fusionScores, getScore_fusionScores]
  obtain ⟨vtl, rfl⟩ : ∃ tl, vres = dv :: tl := by
    cases vres with
    | nil => simp at hdv
    | cons a tl => exact ⟨tl, by simpa using congrArg (fun o => o.getD a :: tl) hdv⟩
  obtain ⟨ktl, rfl⟩ : ∃ tl, kres = e :: tl := by
    cases kres with
    | nil => simp at hke
    | cons a tl => exact ⟨tl, by simpa using congrArg (fun o => o.getD a :: tl) hke⟩
  have hA : (2 : ℚ) / 61 ≤ rrfScoreSpec docs (dv :: vtl) (e :: ktl) 60 A := by
    unfold rrfScoreSpec
    have hv : ((dv :: vtl).take 60).map (fun d => some d.id) =
        some A :: ((vtl.take 59).map (fun d => some d.id)) := by
      rw [show (60 : ℕ) = 59 + 1 from rfl, List.take_succ_cons, List.map_cons,
        hdvA]
    have hk : ((e :: ktl).take 60).map (fun p => (docs.get? p.1).map (·.id)) =
        some A :: ((ktl.take 59).map (fun p => (docs.get? p.1).map (·.id))) := by
      rw [show (60 : ℕ) = 59 + 1 from rfl, List.take_succ_cons, List.map_cons,
        hde, Option.map_some', hd0A]
    rw [hv, hk]
    have h1 := rrfContrib_head_hit 60 ((vtl.take 59).map (fun d => some d.id)) A
    have h2 := rrfContrib_head_hit 60
      ((ktl.take 59).map (fun p => (docs.get? p.1).map (·.id))) A
    have : ((60 : ℕ) : ℚ) + 1 = 61 := by norm_num
    rw [this] at h1 h2
    have : (2 : ℚ) / 61 = 1 / 61 + 1 / 61 := by norm_num
    linarith
  have hB : rrfScoreSpec docs (dv :: vtl) (e :: ktl) 60 B ≤ (1 : ℚ) / 61 := by
    unfold rrfScoreSpec
    have hb1 := rrfContrib_le_count 60
      (((dv :: vtl).take 60).map (fun d => some d.id)) B 0
    have hb2 := rrfContrib_le_count 60
      (((e :: ktl).take 60).map (fun p => (docs.get? p.1).map (·.id))) B 0
    unfold rrfOccCount at hBocc
    have hsum : ((((dv :: vtl).take 60).map (fun d => some d.id)).countP
        (· = some B) : ℚ) +
        ((((e :: ktl).take 60).map (fun p => (docs.get? p.1).map (·.id))).countP
          (· = some B) : ℚ) = 1 := by
      exact_mod_cast hBocc
    have h61 : ((60 : ℕ) : ℚ) + 1 = 61 := by norm_num
    rw [h61] at hb1 hb2
    have := add_le_add hb1 hb2
    calc rrfContrib 60 0 (((dv :: vtl).take 60).map (fun d => some d.id)) B +
          rrfContrib 60 0 (((e :: ktl).take 60).map
            (fun p => (docs.get? p.1).map (·.id))) B ≤ _ := this
      _ = (1 : ℚ) / 61 := by
          rw [div_add_div_same, hsum]
  have : (1 : ℚ) / 61 < 2 / 61 := by norm_num
  linarith

/-- Witness for `reciprocalRankFusion_amended` on a concrete two-document
corpus. -/
theorem reciprocalRankFusion_amended_witness :
    (∀ did, getScore (fusionScores [sampleBDoc]
        [⟨"d", 1⟩, ⟨"bb", 1⟩] [(0, 2)] 60) did =
      rrfScoreSpec [sampleBDoc] [⟨"d", 1⟩, ⟨"bb", 1⟩] [(0, 2)] 60 did) ∧
    (reciprocalRankFusion [sampleBDoc] [⟨"d", 1⟩, ⟨"bb", 1⟩]
      [(0, 2)] 60).Pairwise (fun a b : BDoc × ℚ => b.2 ≤ a.2) ∧
    getScore (fusionScores [sampleBDoc] [⟨"d", 1⟩, ⟨"bb", 1⟩] [(0, 2)] 60) "bb" <
      getScore (fusionScores [sampleBDoc] [⟨"d", 1⟩, ⟨"bb", 1⟩] [(0, 2)] 60) "d" :=
  reciprocalRankFusion_amended [sampleBDoc] [⟨"d", 1⟩, ⟨"bb", 1⟩] [(0, 2)]
    "d" "bb" ⟨"d", 1⟩ (0, 2) sampleBDoc rfl rfl rfl rfl rfl rfl

/-! ## C9 — Search error degradation -/

/-- C9 counterexample: when only the vector backend raises while the
keyword backend succeeds, `hybrid_search` does not return an empty result
list — the keyword hits still produce fused results (and no error value
of any kind accompanies the returned list, whose type is a plain list). -/
theorem hybridSearch_counterexample :
    hybridSvcCE.vectorBackend "q" "c" 20 = Except.error "connection refused" ∧
    (hybridSearch hybridSvcCE "q" "c" 10).length = 1 ∧
    hybridSearch hybridSvcCE "q" "c" 10 ≠ [] := by
  refine ⟨rfl, rfl, ?_⟩
  intro h
  have hlen : (hybridSearch hybridSvcCE "q" "c" 10).length = 1 := rfl
  rw [h] at hlen
  simp at hlen

/-- C9 (amended) — Search error degradation: an exception from either
backend is caught inside `vector_search` / `keyword_search`, which return
`[]` for that leg; no exception or error value crosses the
`hybrid_search` boundary (its result is a plain list for every backend
outcome); and only when both backends raise is the final result list
empty — if one leg fails, the other leg's results are still returned. -/
theorem hybridSearch_degradation (svc : HybridService) (query coll : String)
    (topK : ℕ) (ev ek : String)
    (hv : svc.vectorBackend query coll (topK * 2) = Except.error ev)
    (hk : svc.keywordBackend query (topK * 2) = Except.error ek) :
    vectorSearch svc query coll (topK * 2) = [] ∧
    keywordSearch svc query (topK * 2) = [] ∧
    hybridSearch svc query coll topK = [] := by
  have h1 : vectorSearch svc query coll (topK * 2) = [] := by
    unfold vectorSearch
    rw [hv]
  have h2 : keywordSearch svc query (topK * 2) = [] := by
    unfold keywordSearch
    split
    · rfl
    · rw [hk]
  refine ⟨h1, h2, ?_⟩
  simp only [hybridSearch]
  rw [h1, h2]
  simp [reciprocalRankFusion, fusionScores, rrfFoldVector, rrfFoldKeyword,
    sortPairsDesc, List.insertionSort, docLookup]

/-- Witness for `hybridSearch_degradation`: both backends of `hybridSvcW`
raise. -/
theorem hybridSearch_degradation_witness :
    vectorSearch hybridSvcW "q" "c" (10 * 2) = [] ∧
    keywordSearch hybridSvcW "q" (10 * 2) = [] ∧
    hybridSearch hybridSvcW "q" "c" 10 = [] :=
  hybridSearch_degradation hybridSvcW "q" "c" 10 "connection refused"
    "bm25 backend down" rfl rfl

/-! ## C4 and C10 — Token budget and sub-chunk content preservation -/

theorem pySplitWsAux_append_nl (a b acc : List Char) :
    pySplitWsAux (a ++ '\n' :: b) acc = pySplitWsAux a acc ++ pySplitWsAux b [] := by
  induction a generalizing acc with
  | nil =>
    have h : isPyWs '\n' = true := rfl
    by_cases hacc : acc = [] <;>
      simp [pySplitWsAux, h, hacc]
  | cons c a ih =>
    by_cases hc : isPyWs c <;>
      by_cases hacc : acc = [] <;>
      simp [pySplitWsAux, hc, hacc, ih]

theorem countTokens_append_nl (a b : List Char) :
    countTokens (a ++ '\n' :: b) = countTokens a + countTokens b := by
  unfold countTokens pySplitWs
  rw [pySplitWsAux_append_nl]
  simp

theorem pyJoinNl_singleton (a : List Char) : pyJoinNl [a] = a := by
  simp [pyJoinNl, List.intercalate]

theorem countTokens_pyJoinNl (gs : List (List Char)) :
    countTokens (pyJoinNl gs) = (gs.map countTokens).sum := by
  induction gs with
  | nil => rfl
  | cons a t ih =>
    cases t with
    | nil => simp [pyJoinNl_singleton, countTokens]
    | cons b t' =>
      rw [pyJoinNl_cons_cons, countTokens_append_nl, ih]
      simp

theorem pySplitOn_sep_not_mem (sep : Char) (cs : List Char) :
    ∀ l ∈ pySplitOn sep cs, sep ∉ l := by
  induction cs with
  | nil =>
    intro l hl
    simp [pySplitOn] at hl
    simp [hl]
  | cons c cs ih =>
    intro l hl
    unfold pySplitOn at hl
    by_cases hc : c = sep
    · rw [if_pos hc] at hl
      rcases List.mem_cons.mp hl with rfl | hmem
      · simp
      · exact ih l hmem
    · rw [if_neg hc] at hl
      cases hrec : pySplitOn sep cs with
      | nil => exact absurd hrec (pySplitOn_ne_nil sep cs)
      | cons hd tl =>
        rw [hrec] at hl
        simp only [List.modifyHead] at hl
        rcases List.mem_cons.mp hl with rfl | hmem
        · intro hsep
          rcases List.mem_cons.mp hsep with rfl | hmem2
          · exact hc rfl
          · exact ih hd (by rw [hrec]; exact List.mem_cons_self hd tl) hmem2
        · exact ih l (by rw [hrec]; exact List.mem_cons_of_mem hd hmem)

theorem pySplitNl_no_nl (cs : List Char) : ∀ l ∈ pySplitNl cs, '\n' ∉ l :=
  pySplitOn_sep_not_mem '\n' cs

theorem pySplitNl_eq_single (cs : List Char) (h : '\n' ∉ cs) :
    pySplitNl cs = [cs] := by
  induction cs with
  | nil => rfl
  | cons c cs ih =>
    have hc : ¬ c = '\n' := fun hh => h (hh ▸ List.mem_cons_self c cs)
    have hcs : '\n' ∉ cs := fun hh => h (List.mem_cons_of_mem c hh)
    show pySplitOn '\n' (c :: cs) = [c :: cs]
    unfold pySplitOn
    rw [if_neg hc]
    rw [show pySplitOn '\n' cs = pySplitNl cs from rfl, ih hcs]
    rfl

theorem lookupMeta_dictSetMeta (m : List (String × MetaVal)) (k : String)
    (v : MetaVal) : lookupMeta (dictSetMeta m k v) k = some v := by
  induction m with
  | nil => simp [dictSetMeta, lookupMeta]
  | cons p rest ih =>
    obtain ⟨k0, v0⟩ := p
    unfold dictSetMeta
    by_cases h : k0 = k
    · rw [if_pos h]
      simp [lookupMeta, List.find?, h]
    · rw [if_neg h]
      simpa [lookupMeta, List.find?, h] using ih

theorem splitLoop_spec (chunk : Chunk) (maxT : ℕ) (lines : List (List Char)) :
    ∀ (subChunks : List Chunk) (currentLines : List (List Char))
      (currentTokens : ℕ),
      currentTokens = (currentLines.map countTokens).sum →
      ((currentLines.map countTokens).sum ≤ maxT ∨ ∃ l, currentLines = [l]) →
      (∀ l ∈ currentLines, '\n' ∉ l) →
      (∀ l ∈ lines, '\n' ∉ l) →
      (∀ c ∈ subChunks, ChunkTokenOK maxT c ∧ SubChunkOf chunk c) →
      ∀ c ∈ splitLoop chunk maxT lines subChunks currentLines currentTokens,
        ChunkTokenOK maxT c ∧ SubChunkOf chunk c := by
  have flushOK : ∀ (cur : List (List Char)) (n : ℕ),
      ((cur.map countTokens).sum ≤ maxT ∨ ∃ l, cur = [l]) →
      (∀ l ∈ cur, '\n' ∉ l) →
      ChunkTokenOK maxT (mkSubChunk chunk n cur) ∧
        SubChunkOf chunk (mkSubChunk chunk n cur) := by
    intro cur n hinv hnl
    constructor
    · by_cases htok : countTokens (pyJoinNl cur) ≤ maxT
      · exact Or.inl htok
      · rcases hinv with hsum | ⟨l, rfl⟩
        · exact absurd (by rw [countTokens_pyJoinNl]; exact hsum) htok
        · refine Or.inr ⟨l, ?_, ?_⟩
          · show pySplitNl (pyJoinNl [l]) = [l]
            rw [pyJoinNl_singleton]
            exact pySplitNl_eq_single l (hnl l (List.mem_singleton_self l))
          · rw [pyJoinNl_singleton] at htok
            exact lt_of_not_le htok
    · exact ⟨n, rfl, lookupMeta_dictSetMeta chunk.metadata _ _⟩
  have flushOK' : ∀ (cur : List (List Char)) (n : ℕ),
      ((cur.map countTokens).sum ≤ maxT ∨ ∃ l, cur = [l]) →
      (∀ l ∈ cur, '\n' ∉ l) →
      ChunkTokenOK maxT (mkSubChunkFinal chunk n cur) ∧
        SubChunkOf chunk (mkSubChunkFinal chunk n cur) := by
    intro cur n hinv hnl
    constructor
    · by_cases htok : countTokens (pyJoinNl cur) ≤ maxT
      · exact Or.inl htok
      · rcases hinv with hsum | ⟨l, rfl⟩
        · exact absurd (by rw [countTokens_pyJoinNl]; exact hsum) htok
        · refine Or.inr ⟨l, ?_, ?_⟩
          · show pySplitNl (pyJoinNl [l]) = [l]
            rw [pyJoinNl_singleton]
            exact pySplitNl_eq_single l (hnl l (List.mem_singleton_self l))
          · rw [pyJoinNl_singleton] at htok
            exact lt_of_not_le htok
    · exact ⟨n, rfl, lookupMeta_dictSetMeta chunk.metadata _ _⟩
  induction lines with
  | nil =>
    intro subChunks currentLines currentTokens _ hinv hnlc _ hsub c hc
    rw [show splitLoop chunk maxT [] subChunks currentLines currentTokens =
      (if currentLines ≠ [] then
        subChunks ++ [mkSubChunkFinal chunk subChunks.length currentLines]
      else subChunks) from rfl] at hc
    by_cases h : currentLines ≠ []
    · rw [if_pos h] at hc
      rcases List.mem_append.mp hc with hmem | hmem
      · exact hsub c hmem
      · rw [List.mem_singleton] at hmem
        subst hmem
        exact flushOK' currentLines subChunks.length hinv hnlc
    · rw [if_neg h] at hc
      exact hsub c hc
  | cons line rest ih =>
    intro subChunks currentLines currentTokens htok hinv hnlc hnll hsub c hc
    rw [show splitLoop chunk maxT (line :: rest) subChunks currentLines
          currentTokens =
      (if maxT < currentTokens + countTokens line ∧ currentLines ≠ [] then
        splitLoop chunk maxT rest
          (subChunks ++ [mkSubChunk chunk subChunks.length currentLines])
          [line] (countTokens line)
      else
        splitLoop chunk maxT rest subChunks (currentLines ++ [line])
          (currentTokens + countTokens line)) from rfl] at hc
    by_cases hcond : maxT < currentTokens + countTokens line ∧ currentLines ≠ []
    · rw [if_pos hcond] at hc
      refine ih _ _ _ rfl ?_ ?_ ?_ ?_ c hc
      · by_cases hl : countTokens line ≤ maxT
        · exact Or.inl (by simpa using hl)
        · exact Or.inr ⟨line, rfl⟩
      · intro l hl
        rw [List.mem_singleton] at hl
        subst hl
        exact hnll l (List.mem_cons_self _ _)
      · intro l hl
        exact hnll l (List.mem_cons_of_mem _ hl)
      · intro c' hc'
        rcases List.mem_append.mp hc' with hmem | hmem
        · exact hsub c' hmem
        · rw [List.mem_singleton] at hmem
          subst hmem
          exact flushOK currentLines subChunks.length hinv hnlc
    · rw [if_neg hcond] at hc
      refine ih _ _ _ ?_ ?_ ?_ ?_ hsub c hc
      · rw [htok]
        simp
      · rcases Decidable.not_and_iff_or_not.mp hcond with hle | hnil
        · left
          rw [htok] at hle
          have := le_of_not_lt hle
          simpa using this
        · right
          have : currentLines = [] := by
            by_contra hx
            exact hnil hx
          subst this
          exact ⟨line, rfl⟩
      · intro l hl
        rcases List.mem_append.mp hl with hmem | hmem
        · exact hnlc l hmem
        · rw [List.mem_singleton] at hmem
          subst hmem
          exact hnll l (List.mem_cons_self _ _)
      · intro l hl
        exact hnll l (List.mem_cons_of_mem _ hl)

/-- C4 — Token budget: every chunk returned by `optimize_chunk_size`
either has token count at most `max_tokens` or consists of a single line
whose token count alone exceeds `max_tokens`; and every returned chunk is
either an input chunk (passed through within budget) or a sub-chunk of an
input chunk whose id appends `_sub_{n}` and whose metadata holds a
`parent_chunk` reference to the parent's id.  Token counts are those of
the source's deterministic fallback tokenizer (`len(text.split())`). -/
theorem optimizeChunkSize_spec (chunks : List Chunk) (maxT : ℕ) :
    ∀ ch ∈ optimizeChunkSize chunks maxT,
      ChunkTokenOK maxT ch ∧
        (ch ∈ chunks ∨ ∃ parent ∈ chunks, SubChunkOf parent ch) := by
  intro ch hch
  unfold optimizeChunkSize at hch
  rw [List.mem_flatten] at hch
  obtain ⟨l, hl, hchl⟩ := hch
  obtain ⟨parent, hparent, rfl⟩ := List.mem_map.mp hl
  split at hchl
  · rename_i hle
    rw [List.mem_singleton] at hchl
    subst hchl
    exact ⟨Or.inl hle, Or.inl hparent⟩
  · have := splitLoop_spec parent maxT (pySplitNl parent.content) [] [] 0
      rfl (Or.inl (by simp)) (by simp)
      (pySplitNl_no_nl parent.content) (by simp) ch hchl
    exact ⟨this.1, Or.inr ⟨parent, hparent, this.2⟩⟩

/-- Witness for `optimizeChunkSize_spec` on a concrete oversized chunk. -/
theorem optimizeChunkSize_spec_witness :
    ChunkTokenOK 3 subW ∧
      (subW ∈ [bigChunkW] ∨ ∃ parent ∈ [bigChunkW], SubChunkOf parent subW) :=
  optimizeChunkSize_spec [bigChunkW] 3 subW (by decide)

theorem splitLoop_contents (chunk : Chunk) (maxT : ℕ)
    (lines : List (List Char)) :
    ∀ (subChunks : List Chunk) (currentLines : List (List Char))
      (curTok : ℕ),
      (splitLoop chunk maxT lines subChunks currentLines curTok).map (·.content) =
        subChunks.map (·.content) ++ contentGroups maxT currentLines curTok lines := by
  induction lines with
  | nil =>
    intro subChunks currentLines curTok
    show (if currentLines ≠ [] then
        subChunks ++ [mkSubChunkFinal chunk subChunks.length currentLines]
      else subChunks).map (·.content) =
      subChunks.map (·.content) ++
        (if currentLines ≠ [] then [pyJoinNl currentLines] else [])
    by_cases h : currentLines ≠ []
    · rw [if_pos h, if_pos h]
      simp [mkSubChunkFinal]
    · rw [if_neg h, if_neg h]
      simp
  | cons line rest ih =>
    intro subChunks currentLines curTok
    show (if maxT < curTok + countTokens line ∧ currentLines ≠ [] then
        splitLoop chunk maxT rest
          (subChunks ++ [mkSubChunk chunk subChunks.length currentLines])
          [line] (countTokens line)
      else
        splitLoop chunk maxT rest subChunks (currentLines ++ [line])
          (curTok + countTokens line)).map (·.content) =
      subChunks.map (·.content) ++
        (if maxT < curTok + countTokens line ∧ currentLines ≠ [] then
          pyJoinNl currentLines ::
            contentGroups maxT [line] (countTokens line) rest
        else contentGroups maxT (currentLines ++ [line])
          (curTok + countTokens line) rest)
    by_cases h : maxT < curTok + countTokens line ∧ currentLines ≠ []
    · rw [if_pos h, if_pos h, ih]
      simp [mkSubChunk]
    · rw [if_neg h, if_neg h, ih]

theorem contentGroups_ne_nil (maxT : ℕ) (lines : List (List Char)) :
    ∀ (cur : List (List Char)) (curTok : ℕ), cur ≠ [] →
      contentGroups maxT cur curTok lines ≠ [] := by
  induction lines with
  | nil =>
    intro cur curTok hcur
    show (if cur ≠ [] then [pyJoinNl cur] else []) ≠ []
    rw [if_pos hcur]
    simp
  | cons line rest ih =>
    intro cur curTok hcur
    show (if maxT < curTok + countTokens line ∧ cur ≠ [] then
        pyJoinNl cur :: contentGroups maxT [line] (countTokens line) rest
      else contentGroups maxT (cur ++ [line]) (curTok + countTokens line) rest)
      ≠ []
    by_cases h : maxT < curTok + countTokens line ∧ cur ≠ []
    · rw [if_pos h]
      simp
    · rw [if_neg h]
      exact ih (cur ++ [line]) _ (by simp)

theorem pyJoinNl_append (xs ys : List (List Char)) (hx : xs ≠ [])
    (hy : ys ≠ []) :
    pyJoinNl (xs ++ ys) = pyJoinNl xs ++ '\n' :: pyJoinNl ys := by
  induction xs with
  | nil => exact absurd rfl hx
  | cons a xs' ih =>
    cases xs' with
    | nil =>
      cases ys with
      | nil => exact absurd rfl hy
      | cons b t =>
        rw [List.singleton_append, pyJoinNl_cons_cons, pyJoinNl_singleton]
    | cons a2 xs'' =>
      rw [show (a :: a2 :: xs'') ++ ys = a :: a2 :: (xs'' ++ ys) from rfl]
      rw [pyJoinNl_cons_cons a a2 (xs'' ++ ys), pyJoinNl_cons_cons a a2 xs'']
      rw [show pyJoinNl (a2 :: (xs'' ++ ys)) =
        pyJoinNl ((a2 :: xs'') ++ ys) from rfl]
      rw [ih (by simp)]
      simp

theorem pyJoinNl_contentGroups (maxT : ℕ) (lines : List (List Char)) :
    ∀ (cur : List (List Char)) (curTok : ℕ),
      pyJoinNl (contentGroups maxT cur curTok lines) = pyJoinNl (cur ++ lines) := by
  induction lines with
  | nil =>
    intro cur curTok
    show pyJoinNl (if cur ≠ [] then [pyJoinNl cur] else []) = pyJoinNl (cur ++ [])
    by_cases h : cur ≠ []
    · rw [if_pos h, pyJoinNl_singleton]
      simp
    · rw [if_neg h]
      have : cur = [] := by
        by_contra hx
        exact h hx
      subst this
      rfl
  | cons line rest ih =>
    intro cur curTok
    show pyJoinNl (if maxT < curTok + countTokens line ∧ cur ≠ [] then
        pyJoinNl cur :: contentGroups maxT [line] (countTokens line) rest
      else contentGroups maxT (cur ++ [line]) (curTok + countTokens line) rest) =
      pyJoinNl (cur ++ line :: rest)
    by_cases h : maxT < curTok + countTokens line ∧ cur ≠ []
    · rw [if_pos h]
      have hG : contentGroups maxT [line] (countTokens line) rest ≠ [] :=
        contentGroups_ne_nil maxT rest [line] _ (by simp)
      rw [show pyJoinNl cur :: contentGroups maxT [line] (countTokens line) rest
          = [pyJoinNl cur] ++ contentGroups maxT [line] (countTokens line) rest
        from rfl]
      rw [pyJoinNl_append [pyJoinNl cur] _ (by simp) hG, pyJoinNl_singleton,
        ih [line] (countTokens line)]
      rw [pyJoinNl_append cur (line :: rest) h.2 (by simp)]
      rfl
    · rw [if_neg h, ih (cur ++ [line]) _]
      simp

/-- C10 — Sub-chunk content preservation: joining the contents of the
sub-chunks returned by `_split_large_chunk`, in order, with a newline
between consecutive sub-chunks, reproduces the original chunk's content
exactly. -/
theorem splitLargeChunk_contents (chunk : Chunk) (maxTokens : ℕ) :
    pyJoinNl ((splitLargeChunk chunk maxTokens).map (·.content)) =
      chunk.content := by
  unfold splitLargeChunk
  rw [splitLoop_contents]
  simp only [List.map_nil, List.nil_append]
  rw [pyJoinNl_contentGroups]
  simpa using pyJoinNl_pySplitNl chunk.content

/-! ## C8 — Markdown section noise filter -/

/-- C8 counterexample: `SemanticChunkingService._chunk_markdown` applies
no minimum-length filter — on `"# A\n# B\nxyz"` it emits the section
chunk `"#A\n"` of length 3, far below 50 characters. -/
theorem chunkMarkdown_counterexample :
    ∃ ch ∈ chunkMarkdown "b.md" mdCE,
      ch.chunk_type = "section" ∧ ch.content.length < 50 := by
  decide

theorem mem_mdfEmit {relPath : String} {curSec : List (List Char)}
    {curHdr : String} {startLine endIdx endLineNum : ℕ} {ch : IdxChunk}
    (h : ch ∈ mdfEmit relPath curSec curHdr startLine endIdx endLineNum) :
    curSec ≠ [] ∧ 50 < (pyStrip (pyJoinNl curSec)).length ∧
      ch.ctype = "section" ∧ ch.content = pyJoinNl curSec := by
  unfold mdfEmit at h
  split at h
  · split at h
    · rename_i hne hlen
      rw [List.mem_singleton] at h
      subst h
      exact ⟨hne, hlen, rfl, rfl⟩
    · simp at h
  · simp at h

theorem mdfLoop_spec (relPath : String) (lines : List (List Char))
    (rem : List (List Char)) :
    ∀ (i : ℕ) (curSec : List (List Char)) (curHdr : String) (startLine : ℕ),
      rem = lines.drop i →
      curSec = (lines.drop startLine).take (i - startLine) →
      startLine ≤ i →
      (startLine = 0 ∨ ∃ hl, lines.get? startLine = some hl ∧
        isMdHeaderLine hl = true) →
      ∀ ch ∈ mdfLoop relPath lines.length rem i curSec curHdr startLine,
        ch.ctype = "section" ∧
        50 < (pyStrip ch.content).length ∧
        50 < ch.content.length ∧
        ∃ s n, 0 < n ∧ ch.content = pyJoinNl ((lines.drop s).take n) ∧
          (s = 0 ∨ ∃ hl, lines.get? s = some hl ∧ isMdHeaderLine hl = true) := by
  have emitCase : ∀ (i' : ℕ) (curSec : List (List Char)) (curHdr : String)
      (startLine endIdx endLineNum : ℕ),
      curSec = (lines.drop startLine).take (i' - startLine) →
      (startLine = 0 ∨ ∃ hl, lines.get? startLine = some hl ∧
        isMdHeaderLine hl = true) →
      ∀ ch ∈ mdfEmit relPath curSec curHdr startLine endIdx endLineNum,
        ch.ctype = "section" ∧
        50 < (pyStrip ch.content).length ∧
        50 < ch.content.length ∧
        ∃ s n, 0 < n ∧ ch.content = pyJoinNl ((lines.drop s).take n) ∧
          (s = 0 ∨ ∃ hl, lines.get? s = some hl ∧ isMdHeaderLine hl = true) := by
    intro i' curSec curHdr startLine endIdx endLineNum hsec hstart ch hch
    obtain ⟨hne, hlen, hty, hcontent⟩ := mem_mdfEmit hch
    have hlen2 : 50 < ch.content.length := by
      have := pyStrip_length_le ch.content
      rw [hcontent] at *
      omega
    refine ⟨hty, by rw [hcontent]; exact hlen, hlen2, startLine,
      i' - startLine, ?_, by rw [hcontent, hsec], hstart⟩
    by_contra hzero
    have : i' - startLine = 0 := by omega
    rw [this] at hsec
    simp at hsec
    exact hne hsec
  induction rem with
  | nil =>
    intro i curSec curHdr startLine hrem hsec hle hstart ch hch
    unfold mdfLoop at hch
    exact emitCase i curSec curHdr startLine _ _ hsec hstart ch hch
  | cons l rest ih =>
    intro i curSec curHdr startLine hrem hsec hle hstart ch hch
    have hget : lines.get? i = some l := by
      have := congrArg List.head? hrem
      rw [List.head?_drop] at this
      simp at this
      rw [List.get?_eq_getElem?]
      exact this.symm
    have hrest : rest = lines.drop (i + 1) := by
      have h1 : (l :: rest).tail = (lines.drop i).tail := by rw [hrem]
      simpa [List.tail_drop] using h1
    unfold mdfLoop at hch
    split at hch
    · rcases List.mem_append.mp hch with hmem | hmem
      · exact emitCase i curSec curHdr startLine _ _ hsec hstart ch hmem
      · rename_i hhdr
        refine ih (i + 1) [l] (mdHeaderName l) i hrest ?_ (by omega)
          (Or.inr ⟨l, hget, hhdr⟩) ch hmem
        rw [show i + 1 - i = 1 from by omega]
        rw [List.take_one]
        have : (lines.drop i).head? = some l := by
          rw [List.head?_drop, ← List.get?_eq_getElem?]
          exact hget
        rw [this]
        rfl
    · refine ih (i + 1) (curSec ++ [l]) curHdr startLine hrest ?_ (by omega)
        hstart ch hch
      rw [show i + 1 - startLine = (i - startLine) + 1 from by omega]
      rw [List.take_succ, ← hsec]
      have : (lines.drop startLine)[i - startLine]? = some l := by
        rw [List.getElem?_drop]
        rw [show startLine + (i - startLine) = i from by omega]
        rw [← List.get?_eq_getElem?]
        exact hget
      rw [this]
      rfl

/-- C8 (amended) — Markdown section noise filter: the 50-character noise
filter lives in `IndexingService._chunk_markdown_file`: every chunk it
emits is a `section` whose stripped content is strictly longer than 50
characters (so no emitted chunk is shorter than 50 characters), and each
chunk's content is the newline-join of a contiguous run of the file's
lines starting either at line 0 or at a heading line (levels 1-6).
`SemanticChunkingService._chunk_markdown` applies no such filter and can
emit arbitrarily short section chunks. -/
theorem chunkMarkdownFile_spec (relPath : String) (content : List Char) :
    ∀ ch ∈ chunkMarkdownFile relPath content,
      ch.ctype = "section" ∧
      50 < (pyStrip ch.content).length ∧
      50 < ch.content.length ∧
      ∃ s n, 0 < n ∧
        ch.content = pyJoinNl (((pySplitNl content).drop s).take n) ∧
        (s = 0 ∨ ∃ hl, (pySplitNl content).get? s = some hl ∧
          isMdHeaderLine hl = true) := by
  intro ch hch
  unfold chunkMarkdownFile at hch
  exact mdfLoop_spec relPath (pySplitNl content) (pySplitNl content) 0
    [] "Introduction" 0 rfl rfl (le_refl 0) (Or.inl rfl) ch hch

/-- Witness for `chunkMarkdownFile_spec` on a concrete markdown file with
one sufficiently long section. -/
theorem chunkMarkdownFile_spec_witness :
    idxW.ctype = "section" ∧
    50 < (pyStrip idxW.content).length ∧
    50 < idxW.content.length ∧
    ∃ s n, 0 < n ∧
      idxW.content = pyJoinNl (((pySplitNl mdW).drop s).take n) ∧
      (s = 0 ∨ ∃ hl, (pySplitNl mdW).get? s = some hl ∧
        isMdHeaderLine hl = true) :=
  chunkMarkdownFile_spec "b.md" mdW idxW (by decide)

/-! ## C1 — Chunking determinism and id derivation -/

theorem linesLoop_id (fp lang : String) (lines : List (List Char))
    (chunkSize : ℕ) :
    ∀ (fuel i : ℕ) (ch : Chunk),
      ch ∈ linesLoop fp lang lines chunkSize fuel i → IdShaped fp ch := by
  intro fuel
  induction fuel with
  | zero => intro i ch hch; simp [linesLoop] at hch
  | succ fuel ih =>
    intro i ch hch
    simp only [linesLoop] at hch
    split at hch
    · split at hch
      · exact ih _ ch hch
      · rcases List.mem_cons.mp hch with h | h
        · subst h
          exact ⟨"lines", toString (i / chunkSize), i + 1,
            min (i + chunkSize) lines.length, rfl⟩
        · exact ih _ ch h
    · simp at hch

theorem chunkByLines_id (fp : String) (content : List Char) (lang : String)
    (chunkSize : ℕ) :
    ∀ ch ∈ chunkByLines fp content lang chunkSize, IdShaped fp ch := by
  intro ch hch
  exact linesLoop_id fp lang (pySplitNl content) chunkSize _ _ ch hch

theorem semLoop_id (fp lang : String) (content : List Char)
    (sents : List (List Char)) :
    ∀ (fuel i : ℕ) (ch : Chunk),
      ch ∈ semLoop fp lang content sents fuel i → IdShaped fp ch := by
  intro fuel
  induction fuel with
  | zero => intro i ch hch; simp [semLoop] at hch
  | succ fuel ih =>
    intro i ch hch
    simp only [semLoop] at hch
    split at hch
    · split at hch
      · exact ih _ ch hch
      · split at hch
        · exact ih _ ch hch
        · rcases List.mem_cons.mp hch with h | h
          · subst h
            exact ⟨"semantic", _, _, _, rfl⟩
          · exact ih _ ch h
    · simp at hch

theorem semanticChunkText_id (o : ChunkOracles) (fp : String)
    (content : List Char) (lang : String) :
    ∀ ch ∈ semanticChunkText o fp content lang, IdShaped fp ch := by
  intro ch hch
  unfold semanticChunkText at hch
  split at hch
  · exact semLoop_id fp lang content (sentences content) _ _ ch hch
  · exact chunkByLines_id fp content lang 50 ch hch

theorem chunkPythonCode_id (o : ChunkOracles) (fp : String)
    (content : List Char) (cs : List Chunk)
    (hd : chunkPythonCode o fp content = Except.ok cs) :
    ∀ ch ∈ cs, IdShaped fp ch := by
  intro ch hch
  unfold chunkPythonCode at hd
  split at hd
  · simp at hd
  · rw [Except.ok.injEq] at hd
    subst hd
    exact semanticChunkText_id o fp content "python" ch hch
  · split at hd
    · rw [Except.ok.injEq] at hd
      subst hd
      exact semanticChunkText_id o fp content "python" ch hch
    · rw [Except.ok.injEq] at hd
      subst hd
      rcases List.mem_map.mp hch with ⟨n, _, rfl⟩
      exact ⟨pyNodeType n, n.name, pyNodeStart n,
        pyNodeEnd n (pySplitNl content), rfl⟩

theorem chunkJavascriptCode_id (o : ChunkOracles) (fp : String)
    (content : List Char) :
    ∀ ch ∈ chunkJavascriptCode o fp content, IdShaped fp ch := by
  intro ch hch
  unfold chunkJavascriptCode at hch
  split at hch
  · exact semanticChunkText_id o fp content "javascript" ch hch
  · rcases List.mem_map.mp hch with ⟨tm, _, rfl⟩
    exact ⟨tm.1, jsName content tm.2.1 tm.2.2, countNl (content.take tm.2.1),
      jsEnd content (pySplitNl content) tm.2.1 tm.2.2, rfl⟩

theorem configChunkOfKey_id (fp : String) (content : List Char)
    (lines : List (List Char)) (kv : String × String) :
    ∀ ch ∈ configChunkOfKey fp content lines kv, IdShaped fp ch := by
  intro ch hch
  unfold configChunkOfKey at hch
  split at hch
  · simp at hch
  · rw [List.mem_singleton] at hch
    subst hch
    exact ⟨"section", kv.1, _, _, rfl⟩

theorem chunkConfigFile_id (o : ChunkOracles) (fp : String)
    (content : List Char) :
    ∀ ch ∈ chunkConfigFile o fp content, IdShaped fp ch := by
  intro ch hch
  unfold chunkConfigFile at hch
  split at hch
  · exact chunkByLines_id fp content "yaml" 50 ch hch
  · simp at hch
  · rcases List.mem_flatten.mp hch with ⟨l, hl, hchl⟩
    rcases List.mem_map.mp hl with ⟨kv, _, rfl⟩
    exact configChunkOfKey_id fp content (pySplitNl content) kv ch hchl

theorem mdLoop_fst_id (fp : String) (content : List Char) :
    ∀ (n : ℕ) (pieces : List (List Char)), pieces.length ≤ n →
      ∀ (pos num : ℕ) (ch : Chunk),
        ch ∈ (mdLoop fp content pieces pos num).1 → IdShaped fp ch := by
  intro n
  induction n with
  | zero =>
    intro pieces hlen pos num ch hch
    rw [Nat.le_zero, List.length_eq_zero] at hlen
    subst hlen
    rw [show (mdLoop fp content [] pos num).1 = [] from rfl] at hch
    exact absurd hch (List.not_mem_nil ch)
  | succ n ih =>
    intro pieces hlen pos num ch hch
    match pieces with
    | [] =>
      rw [show (mdLoop fp content [] pos num).1 = [] from rfl] at hch
      exact absurd hch (List.not_mem_nil ch)
    | [a] =>
      rw [show (mdLoop fp content [a] pos num).1 = [] from rfl] at hch
      exact absurd hch (List.not_mem_nil ch)
    | [a, b] =>
      rw [show (mdLoop fp content [a, b] pos num).1 =
        [{ id := mkChunkId fp "section" (toString num)
             (countNl (content.take pos))
             (countNl (content.take (pos + a.length + b.length)))
           content := a ++ b
           file_path := fp
           start_line := countNl (content.take pos) + 1
           end_line := countNl (content.take (pos + a.length + b.length)) + 1
           chunk_type := "section"
           language := "markdown"
           metadata := [("section_number", MetaVal.nat num),
             ("title", MetaVal.str (String.mk (pyStrip b))),
             ("level", MetaVal.nat a.length)] }] from rfl] at hch
      rw [List.mem_singleton] at hch
      subst hch
      exact ⟨"section", toString num, _, _, rfl⟩
    | a :: b :: c :: more =>
      rw [show (mdLoop fp content (a :: b :: c :: more) pos num).1 =
        { id := mkChunkId fp "section" (toString num)
            (countNl (content.take pos))
            (countNl (content.take (pos + a.length + b.length + c.length)))
          content := a ++ b ++ c
          file_path := fp
          start_line := countNl (content.take pos) + 1
          end_line :=
            countNl (content.take (pos + a.length + b.length + c.length)) + 1
          chunk_type := "section"
          language := "markdown"
          metadata := [("section_number", MetaVal.nat num),
            ("title", MetaVal.str (String.mk (pyStrip b))),
            ("level", MetaVal.nat a.length)] } ::
          (mdLoop fp content more (pos + a.length + b.length + c.length)
            (num + 1)).1 from rfl] at hch
      rcases List.mem_cons.mp hch with h | h
      · subst h
        exact ⟨"section", toString num, _, _, rfl⟩
      · have hm : more.length ≤ n := by
          simp only [List.length_cons] at hlen
          omega
        exact ih more hm _ _ ch h

theorem chunkMarkdown_id (fp : String) (content : List Char) :
    ∀ ch ∈ chunkMarkdown fp content, IdShaped fp ch := by
  intro ch hch
  unfold chunkMarkdown at hch
  rcases List.mem_append.mp hch with h | h
  · exact mdLoop_fst_id fp content _ _ le_rfl _ _ ch h
  · unfold mdRemainder at h
    split at h
    · split at h
      · rw [List.mem_singleton] at h
        subst h
        exact ⟨"paragraph", _, _, _, rfl⟩
      · simp at h
    · simp at h

theorem chunkDispatch_id (o : ChunkOracles) (fp : String) (content : List Char)
    (cs : List Chunk) (hd : chunkDispatch o fp content = Except.ok cs) :
    ∀ ch ∈ cs, IdShaped fp ch := by
  unfold chunkDispatch at hd
  split at hd
  · exact chunkPythonCode_id o fp content cs hd
  · split at hd
    · rw [Except.ok.injEq] at hd
      subst hd
      exact chunkJavascriptCode_id o fp content
    · split at hd
      · rw [Except.ok.injEq] at hd
        subst hd
        exact chunkMarkdown_id fp content
      · split at hd
        · rw [Except.ok.injEq] at hd
          subst hd
          exact chunkConfigFile_id o fp content
        · rw [Except.ok.injEq] at hd
          subst hd
          exact semanticChunkText_id o fp content "text"

/-- C1 — Chunking determinism and id derivation: with the external
libraries (`pathlib`, `ast`, `re`, `yaml`, the tokenizer and the sentence
model) fixed as the deterministic oracle functions of `ChunkOracles`, two
calls of `chunk_document` on identical `file_path` and `content` produce
the same chunk list, ids and contents included; and every produced chunk's
id is `f"{file_path}:{kind}:{key}:{start}-{end}"`, built only from the
file path, a chunk-kind tag, a symbol name or ordinal index, and a line
range — never from a random or time-dependent value, of which the
embedding has none. -/
theorem chunkDocument_deterministic (o : ChunkOracles) (f f' : String)
    (c c' : List Char) (hf : f = f') (hc : c = c') :
    chunkDocument o f c = chunkDocument o f' c' ∧
      ∀ ch ∈ chunkDocument o f c, ∃ kind key s e,
        ch.id = mkChunkId f kind key s e := by
  subst hf
  subst hc
  refine ⟨rfl, ?_⟩
  intro ch hch
  unfold chunkDocument at hch
  split at hch
  · rename_i cs hd
    exact chunkDispatch_id o f c cs hd ch hch
  · exact chunkByLines_id f c "text" 30 ch hch

/-- Witness for `chunkDocument_deterministic` at a concrete markdown
document and oracle assignment. -/
theorem chunkDocument_deterministic_witness :
    "b.md" = "b.md" ∧ mdCE = mdCE ∧
      (chunkDocument sampleOracles "b.md" mdCE =
          chunkDocument sampleOracles "b.md" mdCE ∧
        ∀ ch ∈ chunkDocument sampleOracles "b.md" mdCE, ∃ kind key s e,
          ch.id = mkChunkId "b.md" kind key s e) :=
  ⟨rfl, rfl,
    chunkDocument_deterministic sampleOracles "b.md" "b.md" mdCE mdCE rfl rfl⟩

end SnakeHub
